import Mathlib

/-!
Verification of the accessible-menu repository.

The repository contains several near-duplicate variants of a recursive
menu-tree controller class `Menu`:
  * src/src/menu.ts           — synchronous label variant ("variant S" below)
  * src/accessible-menu.ts    — menubar/label variant with getMenuAriaLabel
  * src/unnamed/part_000      — three concatenated variants; the third
                                ("variant T" below, lines 679-1213) has
                                depth-indexed transitions, closeMenu options
                                {closeInstantly, skipFocus} and roving-tabindex
                                toggling of the open item's trigger
  * src/unnamed/part_001      — Options.transitions variant with
                                applyToChildren inheritance markers
  * src/unnamed/part_002      — data-marker transition variant

The definitions below are shallow embeddings of those sources.  Loops are
written as structural recursions (with an explicit counter or fuel equal to
the loop bound), JS array indices as Int/Nat with the exact arithmetic of the
source, and DOM attribute state as record fields.
-/

/- ===================================================================
   Flat keyboard-navigation index computations (src/src/menu.ts 197-265).
   `items.length` is a Nat; the current index arrives as a JS number read
   from the data-index attribute, modelled as Int so that length-0 edge
   cases (length - 1 = -1) behave as in JS.
   =================================================================== -/

/-- focusPreviousItem (src/src/menu.ts line 197): target index computation. -/
def focusPreviousItemIndex (len : Nat) (currentIndex : Int) : Int :=
  if currentIndex = 0 then (len : Int) - 1 else currentIndex - 1

/-- focusNextItem (src/src/menu.ts line 201): target index computation. -/
def focusNextItemIndex (len : Nat) (currentIndex : Int) : Int :=
  if currentIndex = (len : Int) - 1 then 0 else currentIndex + 1

/-- focusFirstItem (src/src/menu.ts line 205): target index 0. -/
def focusFirstItemIndex : Int := 0

/-- focusLastItem (src/src/menu.ts line 209): target index length - 1. -/
def focusLastItemIndex (len : Nat) : Int := (len : Int) - 1

/-- A JS index is a valid position of an items list of length len. -/
def validIndex (len : Nat) (i : Int) : Prop := 0 ≤ i ∧ i < (len : Int)

instance (len : Nat) (i : Int) : Decidable (validIndex len i) := by
  unfold validIndex; infer_instance

/- ===================================================================
   Character search (src/src/menu.ts 231-265).
   Each item contributes the first character of its label text
   (Menu.getFirstCharacter); the search loop
     for (index = startIndex; index < endIndex; index += 1)
   is written with fuel endIndex - startIndex.  JS returns -1 for
   "no match", kept as Int -1.
   =================================================================== -/

/-- Loop body of getNextCharacterMatch: scan indices startIndex,
startIndex+1, ... while fuel lasts; fuel is endIndex - startIndex. -/
def getNextCharacterMatchAux (labels : List Char) (character : Char) :
    Nat → Nat → Int
  | _, 0 => -1
  | startIndex, fuel + 1 =>
    match labels[startIndex]? with
    | some ch =>
      if ch.toLower = character.toLower then (startIndex : Int)
      else getNextCharacterMatchAux labels character (startIndex + 1) fuel
    | none => getNextCharacterMatchAux labels character (startIndex + 1) fuel

/-- getNextCharacterMatch (src/src/menu.ts line 250): first index in
[startIndex, endIndex) whose label first character matches case-insensitively,
else -1. -/
def getNextCharacterMatch (labels : List Char) (character : Char)
    (startIndex endIndex : Nat) : Int :=
  getNextCharacterMatchAux labels character startIndex (endIndex - startIndex)

/-- focusNextCharacterMatch (src/src/menu.ts line 231): search strictly after
currentIndex, then wrap to [0, currentIndex); -1 means focus does not move. -/
def focusNextCharacterMatchIndex (labels : List Char) (currentIndex : Nat)
    (character : Char) : Int :=
  let matchIndex := getNextCharacterMatch labels character (currentIndex + 1) labels.length
  if matchIndex = -1 then getNextCharacterMatch labels character 0 currentIndex
  else matchIndex

/-- Item at index j matches the typed character case-insensitively. -/
def matchesAt (labels : List Char) (character : Char) (j : Nat) : Prop :=
  ∃ ch, labels[j]? = some ch ∧ ch.toLower = character.toLower

instance (labels : List Char) (character : Char) (j : Nat) :
    Decidable (matchesAt labels character j) := by
  unfold matchesAt
  cases labels[j]? with
  | none => exact .isFalse (by simp)
  | some ch => exact decidable_of_iff (ch.toLower = character.toLower) (by simp)

/- ===================================================================
   Accessible-label resolution (claim C8).
   JS getAttribute returns null or a string; a present-but-empty string is
   falsy in the if-tests, so presence-for-the-code means "some s with s ≠ ''".
   =================================================================== -/

/-- Truthiness of a JS getAttribute result. -/
def jsTruthy : Option String → Bool
  | none => false
  | some s => s ≠ ""

/-- Which labelling attribute the menu container ends up carrying. -/
inductive AriaChoice where
  | ariaLabel (text : String)
  | labelledby (id : String)
deriving DecidableEq, Repr

/-- getMenuAriaLabel (src/accessible-menu.ts lines 252-267): an existing
aria-label wins, else aria-labelledby from the label's id, else the hardcoded
default. existingAria is the container's aria-label attribute, labelId the id
of the associated trigger when one exists. -/
def getMenuAriaLabel (existingAria : Option String) (labelId : Option String) :
    AriaChoice :=
  if jsTruthy existingAria then .ariaLabel (existingAria.getD "")
  else
    match labelId with
    | some lid => .labelledby lid
    | none => .ariaLabel "Menu"

/-- setMenuAriaLabel (src/src/menu.ts lines 299-311, and the identical
button-named copies in part_000/part_001/part_002): a trigger always wins,
else an existing aria-label is kept, else the hardcoded default. -/
def setMenuAriaLabelChoice (existingAria : Option String)
    (labelId : Option String) : AriaChoice :=
  match labelId with
  | some lid => .labelledby lid
  | none =>
    if jsTruthy existingAria then .ariaLabel (existingAria.getD "")
    else .ariaLabel "Menu"

/- ===================================================================
   Transition strategy resolution (claims C5, C6).
   =================================================================== -/

/-- The registry keys of Menu.transitions in src/unnamed/part_002
(lines 52-119): instant, fade, slide. -/
def transitionRegistryP2 : List String := ["instant", "fade", "slide"]

/-- getTransition of src/unnamed/part_002 (lines 476-480): look the
data-transition marker up in the registry, defaulting to instant.  The marker
is the dataset.transition attribute (none when absent). -/
def getTransitionP2 (marker : Option String) : String :=
  match marker with
  | some s => if s ∈ transitionRegistryP2 then s else "instant"
  | none => "instant"

/-- One slot of the part_001 Options.transitions table: open and close are
required functions of the TS interface (lines 9-16), applyToChildren an
optional marker. -/
structure TransEntry where
  applyToChildren : Bool
deriving DecidableEq, Repr

/-- Which strategy part_001 getTransition resolves to. -/
inductive ResolvedP1 where
  | table (depth : Nat)
  | instant
deriving DecidableEq, Repr

/-- The ancestor scan of part_001 getTransition (lines 282-293):
for (index = depth - 1; index >= 0; index -= 1) return the first entry
marked applyToChildren.  scanInherit ts n checks indices n-1 down to 0. -/
def scanInherit (ts : List (Option TransEntry)) : Nat → ResolvedP1
  | 0 => .instant
  | n + 1 =>
    match ts.getD n none with
    | some e => if e.applyToChildren then .table n else scanInherit ts n
    | none => scanInherit ts n

/-- getTransition of src/unnamed/part_001 (lines 270-297).  transitions is
the per-depth table (none when no options were supplied); table slots beyond
the length or holes are none.  In the source isRoot holds exactly when
depth = 0, so the not-isRoot test guarding the ancestor scan is depth ≠ 0. -/
def getTransitionP1 (transitions : Option (List (Option TransEntry)))
    (depth : Nat) : ResolvedP1 :=
  match transitions with
  | none => .instant
  | some ts =>
    if (ts.getD depth none).isSome then .table depth
    else if depth ≠ 0 then scanInherit ts depth
    else .instant

/-- A slot of the part_000 transitions array (string | Transition):
a built-in name, or a custom object whose open/close fields may or may not be
functions. A hole or out-of-range slot is none at the use site. -/
inductive TEntryP0 where
  | name (s : String)
  | obj (hasOpen hasClose : Bool)
deriving DecidableEq, Repr

/-- The registry keys of Menu.transitionFunctions in src/unnamed/part_000
(lines 736-797): instant, fade, slide. -/
def transitionRegistryP0 : List String := ["instant", "fade", "slide"]

/-- Which strategy part_000 getTransition resolves to; the default
(Menu.transitionFunctions.instant) is the builtin named instant. -/
inductive ResolvedP0 where
  | builtin (s : String)
  | custom (depth : Nat)
deriving DecidableEq, Repr

/-- Resolution of a present slot of the part_000 table (lines 1017-1031):
a name is looked up in the registry; a custom object is used only if both
open and close are functions. -/
def resolveSlotP0 (e : TEntryP0) (depth : Nat) : ResolvedP0 :=
  match e with
  | .name s => if s ∈ transitionRegistryP0 then .builtin s else .builtin "instant"
  | .obj hasOpen hasClose =>
    if hasOpen && hasClose then .custom depth else .builtin "instant"

/-- getTransition of src/unnamed/part_000 (lines 1001-1035): empty/absent
table falls back to instant; a missing slot recurses to depth - 1 (inheriting
unconditionally, there is no applyToChildren marker in this variant); a
present slot resolves per resolveSlotP0. -/
def getTransitionP0 (ts : List (Option TEntryP0)) : Nat → ResolvedP0
  | 0 =>
    if ts.isEmpty then .builtin "instant"
    else
      match ts.getD 0 none with
      | none => .builtin "instant"
      | some e => resolveSlotP0 e 0
  | d + 1 =>
    if ts.isEmpty then .builtin "instant"
    else
      match ts.getD (d + 1) none with
      | none => getTransitionP0 ts d
      | some e => resolveSlotP0 e (d + 1)

/- ===================================================================
   Completion-callback counting for the callback-style strategies
   (part_001 Menu.transitions, lines 54-99, and part_002 Menu.transitions,
   lines 52-119).  Each model counts how many times `callback` runs over the
   whole life of one open/close call: the synchronous body plus, when the
   CSS transition completes, the once-only transitionend listener.
   transitionEnds says whether a transitionend event eventually fires.
   =================================================================== -/

/-- part_001 instant.open (lines 56-59): display block; callback(). -/
def instantOpenCallbackCountP1 : Nat := 1

/-- part_001 instant.close (lines 60-63): display none; callback(). -/
def instantCloseCallbackCountP1 : Nat := 1

/-- part_001 fade.open (lines 66-82): registers a once-only transitionend
listener that invokes callback, and then also invokes callback()
synchronously at the end of the body (line 81). -/
def fadeOpenCallbackCountP1 (transitionEnds : Bool) : Nat :=
  (if transitionEnds then 1 else 0) + 1

/-- part_001 fade.close (lines 83-97): callback only from the once-only
transitionend listener. -/
def fadeCloseCallbackCountP1 (transitionEnds : Bool) : Nat :=
  if transitionEnds then 1 else 0

/-- part_002 fade.open (lines 64-74): callback only from the once-only
transitionend listener. -/
def fadeOpenCallbackCountP2 (transitionEnds : Bool) : Nat :=
  if transitionEnds then 1 else 0

/- ===================================================================
   The menu tree (variants S and T).
   A node's NData holds its own DOM-visible state: isOpen, the trigger's
   aria-expanded, the container's display, whether the document-level
   outside-click listener is registered, and (instrumentation for the
   transition variant) which strategy performed the last close:
   some true = the built-in instant strategy, some false = the node's own
   resolved strategy.  An item's IData holds the trigger's tabIndex and the
   first character of its label text.  Items with and without submenus are
   the two cons constructors.
   =================================================================== -/

structure NData where
  isOpen : Bool
  ariaExpanded : Bool
  display : Bool
  listening : Bool
  lastCloseInstant : Option Bool
deriving DecidableEq, Repr

structure IData where
  tabIndex : Int
  firstChar : Char
deriving DecidableEq, Repr

mutual
inductive MTree : Type where
  | node (d : NData) (items : MItems)
inductive MItems : Type where
  | nil
  | consPlain (idta : IData) (rest : MItems)
  | consSub (idta : IData) (sub : MTree) (rest : MItems)
end

def MTree.data : MTree → NData
  | .node d _ => d

def MTree.items : MTree → MItems
  | .node _ its => its

def MItems.length : MItems → Nat
  | .nil => 0
  | .consPlain _ r => r.length + 1
  | .consSub _ _ r => r.length + 1

/-- this.items[i]: the item's IData and its optional submenu. -/
def MItems.get? : MItems → Nat → Option (IData × Option MTree)
  | .nil, _ => none
  | .consPlain idta _, 0 => some (idta, none)
  | .consSub idta c _, 0 => some (idta, some c)
  | .consPlain _ r, n + 1 => r.get? n
  | .consSub _ _ r, n + 1 => r.get? n

/-- Replace the submenu of the item at index i (used for updates along a
path; items without a submenu are left unchanged since only items with
submenus are ever targeted). -/
def MItems.setSub : MItems → Nat → MTree → MItems
  | .nil, _, _ => .nil
  | .consPlain idta r, 0, _ => .consPlain idta r
  | .consSub idta _ r, 0, c => .consSub idta c r
  | .consPlain idta r, n + 1, c => .consPlain idta (r.setSub n c)
  | .consSub idta c0 r, n + 1, c => .consSub idta c0 (r.setSub n c)

/-- Replace both the IData and the submenu of the item at index i. -/
def MItems.setItem : MItems → Nat → IData → MTree → MItems
  | .nil, _, _, _ => .nil
  | .consPlain idta r, 0, _, _ => .consPlain idta r
  | .consSub _ _ r, 0, idta2, c => .consSub idta2 c r
  | .consPlain idta r, n + 1, idta2, c => .consPlain idta (r.setItem n idta2 c)
  | .consSub idta c0 r, n + 1, idta2, c => .consSub idta c0 (r.setItem n idta2 c)

/-- First characters of the item labels, in sibling order. -/
def MItems.labelChars : MItems → List Char
  | .nil => []
  | .consPlain idta r => idta.firstChar :: r.labelChars
  | .consSub idta _ r => idta.firstChar :: r.labelChars

/-- Navigate from a node along a path of item indices to a descendant. -/
def getNodeAt : MTree → List Nat → Option MTree
  | t, [] => some t
  | t, i :: rest =>
    match t.items.get? i with
    | some (_, some c) => getNodeAt c rest
    | _ => none

/- ===================================================================
   Machine S: src/src/menu.ts.
   openMenu (lines 96-115): guard isRoot/!menu/isOpen; closeSiblingMenus;
   aria-expanded true; display block; focusFirstItem (non-root, so no
   tabindex change); isOpen = true; add outside-click listener.
   closeMenu (lines 117-136): guard isRoot/!menu/!isOpen; closeChildMenus;
   aria-expanded false; display none; label.focus(); isOpen = false;
   remove outside-click listener.
   =================================================================== -/

def closeDataS (d : NData) : NData :=
  { d with isOpen := false, ariaExpanded := false, display := false,
           listening := false }

def openDataS (d : NData) : NData :=
  { d with isOpen := true, ariaExpanded := true, display := true,
           listening := true }

mutual
/-- closeMenu of src/src/menu.ts applied to a non-root node (the isRoot and
null-menu guards are handled at the call sites: paths into the tree never
target the root here). -/
def closeMenuS : MTree → MTree
  | .node d its =>
    if d.isOpen then .node (closeDataS d) (closeChildrenS its)
    else .node d its
/-- closeChildMenus of src/src/menu.ts: closeMenu on every item's submenu. -/
def closeChildrenS : MItems → MItems
  | .nil => .nil
  | .consPlain idta r => .consPlain idta (closeChildrenS r)
  | .consSub idta c r => .consSub idta (closeMenuS c) (closeChildrenS r)
end

/-- closeSiblingMenus of src/src/menu.ts, seen from the parent: closeMenu on
every item's submenu except the one being opened (skip, matched against the
absolute position counter j). -/
def closeSiblingsAuxS (skip j : Nat) : MItems → MItems
  | .nil => .nil
  | .consPlain idta r => .consPlain idta (closeSiblingsAuxS skip (j + 1) r)
  | .consSub idta c r =>
    if j = skip then .consSub idta c (closeSiblingsAuxS skip (j + 1) r)
    else .consSub idta (closeMenuS c) (closeSiblingsAuxS skip (j + 1) r)

def setOpenS : MTree → MTree
  | .node d its => .node (openDataS d) its

/-- openMenu of src/src/menu.ts on the submenu of item i, seen from the
parent node: no-op when already open, else close sibling submenus and open
the target. -/
def openChildS (t : MTree) (i : Nat) : MTree :=
  match t.items.get? i with
  | some (_, some c) =>
    if c.data.isOpen then t
    else .node t.data ((closeSiblingsAuxS i 0 t.items).setSub i (setOpenS c))
  | _ => t

/-- openMenu invoked on the node at path p of the whole tree; p = [] is the
root, whose openMenu is the isRoot guard no-op. -/
def openMenuAtS : List Nat → MTree → MTree
  | [], t => t
  | [i], t => openChildS t i
  | i :: rest, t =>
    match t.items.get? i with
    | some (_, some c) => .node t.data (t.items.setSub i (openMenuAtS rest c))
    | _ => t

/-- closeMenu invoked on the node at path p; p = [] is the root no-op. -/
def closeMenuAtS : List Nat → MTree → MTree
  | [], t => t
  | [i], t =>
    match t.items.get? i with
    | some (_, some c) => .node t.data (t.items.setSub i (closeMenuS c))
    | _ => t
  | i :: rest, t =>
    match t.items.get? i with
    | some (_, some c) => .node t.data (t.items.setSub i (closeMenuAtS rest c))
    | _ => t

/-- resetTabIndeces plus the assignment label.tabIndex = 0 in focusItem
(src/src/menu.ts lines 213-229): every trigger at position other than target
gets -1, the target gets 0. -/
def rovingSetAux (target j : Nat) : MItems → MItems
  | .nil => .nil
  | .consPlain idta r =>
    .consPlain { idta with tabIndex := if j = target then 0 else -1 }
      (rovingSetAux target (j + 1) r)
  | .consSub idta c r =>
    .consSub { idta with tabIndex := if j = target then 0 else -1 } c
      (rovingSetAux target (j + 1) r)

/-- focusItem on the root node: roving tabindex applies; the items[index]
lookup requires the index to be in range (out of range the JS lookup throws
before any mutation, so the state is unchanged). -/
def focusItemRootS (t : MTree) (i : Int) : MTree :=
  if 0 ≤ i ∧ i < (t.items.length : Int) then
    .node t.data (rovingSetAux i.toNat 0 t.items)
  else t

/-- focusItem on the node at path p: only the root employs roving tabindex;
on any other node focusItem only moves DOM focus and changes no modelled
state. -/
def focusItemAtS (t : MTree) (p : List Nat) (i : Int) : MTree :=
  match p with
  | [] => focusItemRootS t i
  | _ => t

/-- closeParentMenus of src/src/menu.ts invoked from the node at path p:
closes the proper ancestors at depths p.length - 1, ..., 1 (never the root),
deepest first; fuel starts at p.length. -/
def closeParentsFuelS (p : List Nat) : Nat → MTree → MTree
  | 0, t => t
  | 1, t => t
  | n + 2, t => closeParentsFuelS p (n + 1) (closeMenuAtS (p.take (n + 1)) t)

/-- The user-visible operations of variant S: direct open/close (Escape,
outside click), trigger clicks, and the keyboard handlers
(src/src/menu.ts lines 164-186). -/
inductive OpS where
  | openAt (p : List Nat)
  | closeAt (p : List Nat)
  | click (q : List Nat) (i : Nat)
  | keyEscape (p : List Nat)
  | keyTab (p : List Nat)
  | keyPrev (p : List Nat) (i : Nat)
  | keyNext (p : List Nat) (i : Nat)
  | keyHome (p : List Nat)
  | keyEnd (p : List Nat)
  | keyChar (p : List Nat) (i : Nat) (character : Char)
  | outsideClick (p : List Nat)

def applyOpS : OpS → MTree → MTree
  | .openAt p, t => openMenuAtS p t
  | .closeAt p, t => closeMenuAtS p t
  | .click q i, t =>
    let t1 := focusItemAtS t q (i : Int)
    match getNodeAt t1 (q ++ [i]) with
    | some c =>
      if c.data.isOpen then closeMenuAtS (q ++ [i]) t1
      else openMenuAtS (q ++ [i]) t1
    | none => t1
  | .keyEscape p, t => closeMenuAtS p t
  | .keyTab p, t => closeParentsFuelS p p.length (closeMenuAtS p t)
  | .keyPrev p i, t =>
    match getNodeAt t p with
    | some nd => focusItemAtS t p (focusPreviousItemIndex nd.items.length (i : Int))
    | none => t
  | .keyNext p i, t =>
    match getNodeAt t p with
    | some nd => focusItemAtS t p (focusNextItemIndex nd.items.length (i : Int))
    | none => t
  | .keyHome p, t => focusItemAtS t p focusFirstItemIndex
  | .keyEnd p, t =>
    match getNodeAt t p with
    | some nd => focusItemAtS t p (focusLastItemIndex nd.items.length)
    | none => t
  | .keyChar p i character, t =>
    match getNodeAt t p with
    | some nd =>
      let m := focusNextCharacterMatchIndex nd.items.labelChars i character
      if m = -1 then t else focusItemAtS t p m
    | none => t
  | .outsideClick p, t => closeMenuAtS p t

/-- Menu.getItemTabIndex (src/src/menu.ts lines 291-297). -/
def getItemTabIndex (index : Nat) (isInRootMenu : Bool) : Int :=
  if !isInRootMenu then -1
  else if index = 0 then 0 else -1

mutual
/-- The state the constructor establishes: the root is open, every submenu
is closed and hidden with aria-expanded false, no outside-click listener is
registered, and tabindexes follow Menu.getItemTabIndex. -/
def initialS (isRoot : Bool) : MTree → Bool
  | .node d its =>
    d.isOpen == isRoot && d.ariaExpanded == false && d.listening == false &&
    (isRoot || d.display == false) && initialItemsS isRoot 0 its
def initialItemsS (isRoot : Bool) (j : Nat) : MItems → Bool
  | .nil => true
  | .consPlain idta r =>
    idta.tabIndex == getItemTabIndex j isRoot && initialItemsS isRoot (j + 1) r
  | .consSub idta c r =>
    idta.tabIndex == getItemTabIndex j isRoot && initialS false c &&
    initialItemsS isRoot (j + 1) r
end

/-- States reachable from a constructor-initial tree by any sequence of
user-visible operations. -/
inductive ReachS : MTree → Prop where
  | init (t : MTree) : initialS true t = true → ReachS t
  | step (o : OpS) (t : MTree) : ReachS t → ReachS (applyOpS o t)

/- Invariant observables. -/

/-- Number of items of a sibling group whose submenu is open. -/
def openSubCount : MItems → Nat
  | .nil => 0
  | .consPlain _ r => openSubCount r
  | .consSub _ c r => (if c.data.isOpen then 1 else 0) + openSubCount r

mutual
/-- Sibling-exclusivity: every node of the tree has at most one item with an
open submenu. -/
def sibExcl : MTree → Bool
  | .node _ its => decide (openSubCount its ≤ 1) && sibExclItems its
def sibExclItems : MItems → Bool
  | .nil => true
  | .consPlain _ r => sibExclItems r
  | .consSub _ c r => sibExcl c && sibExclItems r
end

/-- Number of triggers of a sibling group whose tabIndex is 0. -/
def tabZeroCount : MItems → Nat
  | .nil => 0
  | .consPlain idta r => (if idta.tabIndex = 0 then 1 else 0) + tabZeroCount r
  | .consSub idta _ r => (if idta.tabIndex = 0 then 1 else 0) + tabZeroCount r

mutual
/-- Every node of the tree is closed. -/
def allClosed : MTree → Bool
  | .node d its => !d.isOpen && allClosedItems its
def allClosedItems : MItems → Bool
  | .nil => true
  | .consPlain _ r => allClosedItems r
  | .consSub _ c r => allClosed c && allClosedItems r
end

mutual
/-- Closed-implies-subtree-closed: every closed node has a fully closed
subtree (true of every reachable state of the widget; the openMenu guards
keep submenus of hidden menus unreachable to the user). -/
def closedBelowOk : MTree → Bool
  | .node d its => if d.isOpen then closedBelowOkItems its else allClosedItems its
def closedBelowOkItems : MItems → Bool
  | .nil => true
  | .consPlain _ r => closedBelowOkItems r
  | .consSub _ c r => closedBelowOk c && closedBelowOkItems r
end

/- ===================================================================
   Machine T: the transition variant of src/unnamed/part_000
   (lines 679-1213).  openMenu (931-962): guard !menu/!isToggleable/isOpen;
   isOpen = true; aria-expanded true; add outside-click listener;
   closeSiblingMenus (skipFocus); run the open transition (display);
   then, after the deferred double requestAnimationFrame (modelled as
   completing within the same step), if hasMenuButton or parent.isRoot set
   the controlling trigger's tabIndex to -1 and focus the first item.
   closeMenu({closeInstantly, skipFocus}) (964-999): guard; isOpen = false;
   aria-expanded false; remove listener; run the close transition — the
   instant one when closeInstantly; deferred: closeChildMenus (each child
   closed with closeInstantly and skipFocus), restore the trigger's
   tabIndex to 0 when hasMenuButton or parent.isRoot, focus the trigger
   unless suppressed.  All non-root nodes are toggleable; a node's trigger
   is the IData of its item in the parent, so close/open of a node also
   updates that IData.  hasMenuButton is false for every non-root node.
   =================================================================== -/

def closeDataT (instant : Bool) (d : NData) : NData :=
  { d with isOpen := false, ariaExpanded := false, display := false,
           listening := false, lastCloseInstant := some instant }

mutual
/-- closeMenu of variant T on the submenu of an item: instant selects the
strategy (recorded in lastCloseInstant), skipFocus only suppresses the
unmodelled focus move, parentIsRoot is the hasMenuButton-or-parent-isRoot
condition deciding the trigger tabIndex restore. -/
def closeItemT (instant skipFocus parentIsRoot : Bool) :
    IData → MTree → IData × MTree
  | idta, .node d its =>
    if d.isOpen then
      ({ idta with tabIndex := if parentIsRoot then 0 else idta.tabIndex },
        .node (closeDataT instant d) (closeChildrenT its))
    else (idta, .node d its)
/-- closeChildMenus of variant T: every child submenu is closed with
closeInstantly and skipFocus; the children's parent is the (non-root) node
being closed, so their tabIndex is not restored. -/
def closeChildrenT : MItems → MItems
  | .nil => .nil
  | .consPlain idta r => .consPlain idta (closeChildrenT r)
  | .consSub idta c r =>
    .consSub (closeItemT true true false idta c).1
      (closeItemT true true false idta c).2 (closeChildrenT r)
end

/-- closeSiblingMenus of variant T, seen from the parent: closeMenu with
skipFocus (not instant) on every item's submenu except the target. -/
def closeSiblingsAuxT (skip : Nat) (parentIsRoot : Bool) (j : Nat) :
    MItems → MItems
  | .nil => .nil
  | .consPlain idta r =>
    .consPlain idta (closeSiblingsAuxT skip parentIsRoot (j + 1) r)
  | .consSub idta c r =>
    if j = skip then
      .consSub idta c (closeSiblingsAuxT skip parentIsRoot (j + 1) r)
    else
      .consSub (closeItemT false true parentIsRoot idta c).1
        (closeItemT false true parentIsRoot idta c).2
        (closeSiblingsAuxT skip parentIsRoot (j + 1) r)

/-- openMenu of variant T on the submenu of item i, seen from the parent
node; selfIsRoot says whether that parent is the root (the parent.isRoot
condition of the deferred tabIndex toggle). -/
def openChildT (t : MTree) (i : Nat) (selfIsRoot : Bool) : MTree :=
  match t.items.get? i with
  | some (idta, some c) =>
    if c.data.isOpen then t
    else
      .node t.data
        ((closeSiblingsAuxT i selfIsRoot 0 t.items).setItem i
          (if selfIsRoot then { idta with tabIndex := -1 } else idta)
          (setOpenS c))
  | _ => t

/-- openMenu of variant T invoked on the node at path p; p = [] covers the
root, which in the modelled configuration (menubar without external button)
is not toggleable, so the call is a guard no-op. -/
def openMenuAtT (selfIsRoot : Bool) : List Nat → MTree → MTree
  | [], t => t
  | [i], t => openChildT t i selfIsRoot
  | i :: rest, t =>
    match t.items.get? i with
    | some (_, some c) => .node t.data (t.items.setSub i (openMenuAtT false rest c))
    | _ => t

/-- closeMenu (closeInstantly, skipFocus both false) of variant T invoked on
the node at path p; p = [] is the non-toggleable-root guard no-op. -/
def closeMenuAtT (selfIsRoot : Bool) : List Nat → MTree → MTree
  | [], t => t
  | [i], t =>
    match t.items.get? i with
    | some (idta, some c) =>
      .node t.data (t.items.setItem i
        (closeItemT false false selfIsRoot idta c).1
        (closeItemT false false selfIsRoot idta c).2)
    | _ => t
  | i :: rest, t =>
    match t.items.get? i with
    | some (_, some c) => .node t.data (t.items.setSub i (closeMenuAtT false rest c))
    | _ => t

/-- buttonClickHandler of variant T: focusItem on the clicked index (roving
applies at root; variant T focusItem is identical to variant S), then toggle
the item's submenu. -/
def clickT (q : List Nat) (i : Nat) (t : MTree) : MTree :=
  let t1 := focusItemAtS t q (i : Int)
  match getNodeAt t1 (q ++ [i]) with
  | some c =>
    if c.data.isOpen then closeMenuAtT true (q ++ [i]) t1
    else openMenuAtT true (q ++ [i]) t1
  | none => t1

/-- The open/close/click operations of variant T. -/
inductive OpT where
  | openAt (p : List Nat)
  | closeAt (p : List Nat)
  | click (q : List Nat) (i : Nat)

def applyOpT : OpT → MTree → MTree
  | .openAt p, t => openMenuAtT true p t
  | .closeAt p, t => closeMenuAtT true p t
  | .click q i, t => clickT q i t

/-- States of variant T reachable from a constructor-initial tree (the
constructor establishes the same state as variant S: for a root menubar
without external button, isOpen = !isToggleable holds exactly when the node
is the root). -/
inductive ReachT : MTree → Prop where
  | init (t : MTree) : initialS true t = true → ReachT t
  | step (o : OpT) (t : MTree) : ReachT t → ReachT (applyOpT o t)

/- ===================================================================
   Concrete example trees.
   =================================================================== -/

def exSubLeaf : MTree :=
  .node { isOpen := false, ariaExpanded := false, display := false,
          listening := false, lastCloseInstant := none }
    (.consPlain { tabIndex := -1, firstChar := 'x' } .nil)

/-- A root menubar with a single item disclosing one submenu. -/
def exRootOneSub : MTree :=
  .node { isOpen := true, ariaExpanded := false, display := true,
          listening := false, lastCloseInstant := none }
    (.consSub { tabIndex := 0, firstChar := 'a' } exSubLeaf .nil)

/-- A root menubar with two items, the first disclosing one submenu. -/
def exRootTwo : MTree :=
  .node { isOpen := true, ariaExpanded := false, display := true,
          listening := false, lastCloseInstant := none }
    (.consSub { tabIndex := 0, firstChar := 'a' } exSubLeaf
      (.consPlain { tabIndex := -1, firstChar := 'b' } .nil))

/-- An open two-level subtree: an open node with one open child submenu,
as it appears while both levels are disclosed. -/
def exOpenDeep : MTree :=
  .node { isOpen := true, ariaExpanded := true, display := true,
          listening := true, lastCloseInstant := none }
    (.consSub { tabIndex := -1, firstChar := 'c' }
      (.node { isOpen := true, ariaExpanded := true, display := true,
               listening := true, lastCloseInstant := none }
        (.consPlain { tabIndex := -1, firstChar := 'd' } .nil))
      .nil)

/-- An open leaf submenu (as it appears right after being disclosed). -/
def exSubLeafOpen : MTree :=
  .node { isOpen := true, ariaExpanded := true, display := true,
          listening := true, lastCloseInstant := none }
    (.consPlain { tabIndex := -1, firstChar := 'x' } .nil)

/-- A root menubar with two submenu items: the first closed, the second
open (the state after disclosing the second item's submenu). -/
def exRootTwoSubs : MTree :=
  .node { isOpen := true, ariaExpanded := false, display := true,
          listening := false, lastCloseInstant := none }
    (.consSub { tabIndex := 0, firstChar := 'a' } exSubLeaf
      (.consSub { tabIndex := -1, firstChar := 'b' } exSubLeafOpen .nil))

/- Characterization lemmas for the search loop. -/

theorem getNextCharacterMatchAux_found (labels : List Char) (character : Char) :
    ∀ fuel startIndex j, startIndex ≤ j → j < startIndex + fuel →
    matchesAt labels character j →
    (∀ k, startIndex ≤ k → k < j → ¬ matchesAt labels character k) →
    getNextCharacterMatchAux labels character startIndex fuel = (j : Int) := by
  intro fuel
  induction fuel with
  | zero => intro s j h1 h2; omega
  | succ n ih =>
    intro s j h1 h2 hm hfirst
    by_cases hsj : s = j
    · subst hsj
      obtain ⟨ch, hch, heq⟩ := hm
      simp [getNextCharacterMatchAux, hch, heq]
    · have hs : s < j := by omega
      have hnot : ¬ matchesAt labels character s := hfirst s le_rfl hs
      have step : getNextCharacterMatchAux labels character s (n + 1) =
          getNextCharacterMatchAux labels character (s + 1) n := by
        cases hc : labels[s]? with
        | none => simp only [getNextCharacterMatchAux, hc]
        | some ch =>
          have hne : ¬ ch.toLower = character.toLower := fun h => hnot ⟨ch, hc, h⟩
          simp only [getNextCharacterMatchAux, hc, if_neg hne]
      rw [step]
      exact ih (s + 1) j (by omega) (by omega) hm
        (fun k hk1 hk2 => hfirst k (by omega) hk2)

theorem getNextCharacterMatchAux_none (labels : List Char) (character : Char) :
    ∀ fuel startIndex,
    (∀ k, startIndex ≤ k → k < startIndex + fuel → ¬ matchesAt labels character k) →
    getNextCharacterMatchAux labels character startIndex fuel = -1 := by
  intro fuel
  induction fuel with
  | zero => intro s _; rfl
  | succ n ih =>
    intro s hnone
    have hnot : ¬ matchesAt labels character s := hnone s le_rfl (by omega)
    have step : getNextCharacterMatchAux labels character s (n + 1) =
        getNextCharacterMatchAux labels character (s + 1) n := by
      cases hc : labels[s]? with
      | none => simp only [getNextCharacterMatchAux, hc]
      | some ch =>
        have hne : ¬ ch.toLower = character.toLower := fun h => hnot ⟨ch, hc, h⟩
        simp only [getNextCharacterMatchAux, hc, if_neg hne]
    rw [step]
    exact ih (s + 1) (fun k hk1 hk2 => hnone k (by omega) (by omega))

theorem getNextCharacterMatch_found (labels : List Char) (character : Char)
    (startIndex endIndex j : Nat) (h1 : startIndex ≤ j) (h2 : j < endIndex)
    (hm : matchesAt labels character j)
    (hfirst : ∀ k, startIndex ≤ k → k < j → ¬ matchesAt labels character k) :
    getNextCharacterMatch labels character startIndex endIndex = (j : Int) :=
  getNextCharacterMatchAux_found labels character (endIndex - startIndex)
    startIndex j h1 (by omega) hm hfirst

theorem getNextCharacterMatch_none (labels : List Char) (character : Char)
    (startIndex endIndex : Nat)
    (hnone : ∀ k, startIndex ≤ k → k < endIndex → ¬ matchesAt labels character k) :
    getNextCharacterMatch labels character startIndex endIndex = -1 :=
  getNextCharacterMatchAux_none labels character (endIndex - startIndex)
    startIndex (fun k hk1 hk2 => hnone k hk1 (by omega))

theorem getNextCharacterMatchAux_bounds (labels : List Char) (character : Char) :
    ∀ fuel startIndex,
    getNextCharacterMatchAux labels character startIndex fuel = -1 ∨
    ∃ j : Nat, getNextCharacterMatchAux labels character startIndex fuel = (j : Int) ∧
      startIndex ≤ j ∧ j < startIndex + fuel := by
  intro fuel
  induction fuel with
  | zero => intro s; exact .inl rfl
  | succ n ih =>
    intro s
    cases hc : labels[s]? with
    | none =>
      rw [show getNextCharacterMatchAux labels character s (n + 1) =
          getNextCharacterMatchAux labels character (s + 1) n from by
        simp only [getNextCharacterMatchAux, hc]]
      rcases ih (s + 1) with h | ⟨j, hj, hj1, hj2⟩
      · exact .inl h
      · exact .inr ⟨j, hj, by omega, by omega⟩
    | some ch =>
      by_cases heq : ch.toLower = character.toLower
      · refine .inr ⟨s, ?_, le_rfl, by omega⟩
        simp only [getNextCharacterMatchAux, hc, if_pos heq]
      · rw [show getNextCharacterMatchAux labels character s (n + 1) =
            getNextCharacterMatchAux labels character (s + 1) n from by
          simp only [getNextCharacterMatchAux, hc, if_neg heq]]
        rcases ih (s + 1) with h | ⟨j, hj, hj1, hj2⟩
        · exact .inl h
        · exact .inr ⟨j, hj, by omega, by omega⟩

theorem getNextCharacterMatch_bounds (labels : List Char) (character : Char)
    (startIndex endIndex : Nat) :
    getNextCharacterMatch labels character startIndex endIndex = -1 ∨
    ∃ j : Nat, getNextCharacterMatch labels character startIndex endIndex = (j : Int) ∧
      startIndex ≤ j ∧ j < endIndex := by
  rcases getNextCharacterMatchAux_bounds labels character (endIndex - startIndex)
      startIndex with h | ⟨j, hj, hj1, hj2⟩
  · exact .inl h
  · by_cases hcmp : startIndex < endIndex
    · exact .inr ⟨j, hj, hj1, by omega⟩
    · -- loop fuel endIndex - startIndex = 0: result is -1
      have : endIndex - startIndex = 0 := by omega
      left
      unfold getNextCharacterMatch
      rw [this]
      rfl


/- ===================================================================
   Lemmas about the tree operations of machine S.
   =================================================================== -/

theorem node_eta : ∀ t : MTree, MTree.node t.data t.items = t
  | .node _ _ => rfl

theorem closeMenuS_isOpen : ∀ t : MTree, (closeMenuS t).data.isOpen = false
  | .node d its => by
    by_cases h : d.isOpen <;> simp [closeMenuS, h, closeDataS, MTree.data]

theorem closeMenuS_closed_eq : ∀ t : MTree, t.data.isOpen = false →
    closeMenuS t = t
  | .node d its, h => by
    simp only [MTree.data] at h
    simp [closeMenuS, h]

theorem setOpenS_isOpen : ∀ t : MTree, (setOpenS t).data.isOpen = true
  | .node d its => rfl

theorem sibExcl_setOpenS : ∀ t : MTree, sibExcl (setOpenS t) = sibExcl t
  | .node d its => rfl

theorem length_closeChildrenS : ∀ its : MItems,
    (closeChildrenS its).length = its.length
  | .nil => rfl
  | .consPlain idta r => by
    simp [closeChildrenS, MItems.length, length_closeChildrenS r]
  | .consSub idta c r => by
    simp [closeChildrenS, MItems.length, length_closeChildrenS r]

theorem length_closeSiblingsAuxS (skip : Nat) : ∀ (j : Nat) (its : MItems),
    (closeSiblingsAuxS skip j its).length = its.length
  | _, .nil => rfl
  | j, .consPlain idta r => by
    simp [closeSiblingsAuxS, MItems.length, length_closeSiblingsAuxS skip (j + 1) r]
  | j, .consSub idta c r => by
    by_cases h : j = skip
    · simp [closeSiblingsAuxS, h, MItems.length,
        length_closeSiblingsAuxS skip (skip + 1) r]
    · simp [closeSiblingsAuxS, h, MItems.length,
        length_closeSiblingsAuxS skip (j + 1) r]

theorem length_setSub : ∀ (its : MItems) (i : Nat) (c : MTree),
    (its.setSub i c).length = its.length
  | .nil, _, _ => rfl
  | .consPlain _ r, 0, _ => rfl
  | .consSub _ _ r, 0, _ => rfl
  | .consPlain idta r, n + 1, c => by
    simp [MItems.setSub, MItems.length, length_setSub r n c]
  | .consSub idta c0 r, n + 1, c => by
    simp [MItems.setSub, MItems.length, length_setSub r n c]

theorem length_setItem : ∀ (its : MItems) (i : Nat) (idta2 : IData) (c : MTree),
    (its.setItem i idta2 c).length = its.length
  | .nil, _, _, _ => rfl
  | .consPlain _ r, 0, _, _ => rfl
  | .consSub _ _ r, 0, _, _ => rfl
  | .consPlain idta r, n + 1, idta2, c => by
    simp [MItems.setItem, MItems.length, length_setItem r n idta2 c]
  | .consSub idta c0 r, n + 1, idta2, c => by
    simp [MItems.setItem, MItems.length, length_setItem r n idta2 c]

theorem length_rovingSetAux (target : Nat) : ∀ (j : Nat) (its : MItems),
    (rovingSetAux target j its).length = its.length
  | _, .nil => rfl
  | j, .consPlain idta r => by
    simp [rovingSetAux, MItems.length, length_rovingSetAux target (j + 1) r]
  | j, .consSub idta c r => by
    simp [rovingSetAux, MItems.length, length_rovingSetAux target (j + 1) r]

theorem tabZeroCount_closeChildrenS : ∀ its : MItems,
    tabZeroCount (closeChildrenS its) = tabZeroCount its
  | .nil => rfl
  | .consPlain idta r => by
    simp [closeChildrenS, tabZeroCount, tabZeroCount_closeChildrenS r]
  | .consSub idta c r => by
    simp [closeChildrenS, tabZeroCount, tabZeroCount_closeChildrenS r]

theorem tabZeroCount_closeSiblingsAuxS (skip : Nat) : ∀ (j : Nat) (its : MItems),
    tabZeroCount (closeSiblingsAuxS skip j its) = tabZeroCount its
  | _, .nil => rfl
  | j, .consPlain idta r => by
    simp [closeSiblingsAuxS, tabZeroCount,
      tabZeroCount_closeSiblingsAuxS skip (j + 1) r]
  | j, .consSub idta c r => by
    by_cases h : j = skip
    · simp [closeSiblingsAuxS, h, tabZeroCount,
        tabZeroCount_closeSiblingsAuxS skip (skip + 1) r]
    · simp [closeSiblingsAuxS, h, tabZeroCount,
        tabZeroCount_closeSiblingsAuxS skip (j + 1) r]

theorem tabZeroCount_setSub : ∀ (its : MItems) (i : Nat) (c : MTree),
    tabZeroCount (its.setSub i c) = tabZeroCount its
  | .nil, _, _ => rfl
  | .consPlain _ r, 0, _ => rfl
  | .consSub _ _ r, 0, _ => rfl
  | .consPlain idta r, n + 1, c => by
    simp [MItems.setSub, tabZeroCount, tabZeroCount_setSub r n c]
  | .consSub idta c0 r, n + 1, c => by
    simp [MItems.setSub, tabZeroCount, tabZeroCount_setSub r n c]

theorem tabZeroCount_rovingSetAux_none (target : Nat) : ∀ (j : Nat) (its : MItems),
    target < j → tabZeroCount (rovingSetAux target j its) = 0
  | _, .nil, _ => rfl
  | j, .consPlain idta r, h => by
    have hne : j ≠ target := by omega
    simp [rovingSetAux, tabZeroCount, hne,
      tabZeroCount_rovingSetAux_none target (j + 1) r (by omega)]
  | j, .consSub idta c r, h => by
    have hne : j ≠ target := by omega
    simp [rovingSetAux, tabZeroCount, hne,
      tabZeroCount_rovingSetAux_none target (j + 1) r (by omega)]

theorem tabZeroCount_rovingSetAux (target : Nat) : ∀ (j : Nat) (its : MItems),
    j ≤ target → target < j + its.length →
    tabZeroCount (rovingSetAux target j its) = 1
  | j, .nil, h1, h2 => by simp [MItems.length] at h2; omega
  | j, .consPlain idta r, h1, h2 => by
    by_cases h : j = target
    · subst h
      have hrest : tabZeroCount (rovingSetAux j (j + 1) r) = 0 :=
        tabZeroCount_rovingSetAux_none j (j + 1) r (by omega)
      simp [rovingSetAux, tabZeroCount, hrest]
    · have : target < (j + 1) + r.length := by
        simp [MItems.length] at h2; omega
      have hrest := tabZeroCount_rovingSetAux target (j + 1) r (by omega) this
      simp [rovingSetAux, tabZeroCount, h, hrest]
  | j, .consSub idta c r, h1, h2 => by
    by_cases h : j = target
    · subst h
      have hrest : tabZeroCount (rovingSetAux j (j + 1) r) = 0 :=
        tabZeroCount_rovingSetAux_none j (j + 1) r (by omega)
      simp [rovingSetAux, tabZeroCount, hrest]
    · have : target < (j + 1) + r.length := by
        simp [MItems.length] at h2; omega
      have hrest := tabZeroCount_rovingSetAux target (j + 1) r (by omega) this
      simp [rovingSetAux, tabZeroCount, h, hrest]

theorem openSubCount_closeChildrenS : ∀ its : MItems,
    openSubCount (closeChildrenS its) = 0
  | .nil => rfl
  | .consPlain idta r => by
    simp [closeChildrenS, openSubCount, openSubCount_closeChildrenS r]
  | .consSub idta c r => by
    simp [closeChildrenS, openSubCount, closeMenuS_isOpen c,
      openSubCount_closeChildrenS r]

theorem openSubCount_closeSiblingsAuxS_past (skip : Nat) :
    ∀ (j : Nat) (its : MItems), skip < j →
    openSubCount (closeSiblingsAuxS skip j its) = 0
  | _, .nil, _ => rfl
  | j, .consPlain idta r, h => by
    simp [closeSiblingsAuxS, openSubCount,
      openSubCount_closeSiblingsAuxS_past skip (j + 1) r (by omega)]
  | j, .consSub idta c r, h => by
    have hne : j ≠ skip := by omega
    simp [closeSiblingsAuxS, hne, openSubCount, closeMenuS_isOpen c,
      openSubCount_closeSiblingsAuxS_past skip (j + 1) r (by omega)]

theorem openSubCount_openedItems :
    ∀ (its : MItems) (j k : Nat) (c : MTree),
    openSubCount ((closeSiblingsAuxS (j + k) j its).setSub k (setOpenS c)) ≤ 1
  | .nil, _, _, _ => by simp [closeSiblingsAuxS, MItems.setSub, openSubCount]
  | .consPlain idta r, j, 0, c => by
    simp only [closeSiblingsAuxS, MItems.setSub, openSubCount]
    have := openSubCount_closeSiblingsAuxS_past (j + 0) (j + 1) r (by omega)
    omega
  | .consPlain idta r, j, k + 1, c => by
    simp only [closeSiblingsAuxS, MItems.setSub, openSubCount]
    have := openSubCount_openedItems r (j + 1) k c
    have harg : (j + 1) + k = j + (k + 1) := by omega
    rw [harg] at this
    exact this
  | .consSub idta c0 r, j, 0, c => by
    have hrest := openSubCount_closeSiblingsAuxS_past j (j + 1) r (by omega)
    simp [closeSiblingsAuxS, MItems.setSub, openSubCount, setOpenS_isOpen, hrest]
  | .consSub idta c0 r, j, k + 1, c => by
    have hne : j ≠ j + (k + 1) := by omega
    have hrec := openSubCount_openedItems r (j + 1) k c
    have harg : (j + 1) + k = j + (k + 1) := by omega
    rw [harg] at hrec
    simpa [closeSiblingsAuxS, if_neg hne, MItems.setSub, openSubCount,
      closeMenuS_isOpen c0] using hrec

mutual
theorem sibExcl_closeMenuS : ∀ t : MTree, sibExcl t = true →
    sibExcl (closeMenuS t) = true
  | .node d its, h => by
    have h2 : sibExclItems its = true := by
      simp [sibExcl] at h
      exact h.2
    by_cases hop : d.isOpen = true
    · have hc := sibExclItems_closeChildrenS its h2
      simp [closeMenuS, hop, sibExcl, openSubCount_closeChildrenS, hc]
    · simp only [Bool.not_eq_true] at hop
      simpa [closeMenuS, hop] using h
theorem sibExclItems_closeChildrenS : ∀ its : MItems, sibExclItems its = true →
    sibExclItems (closeChildrenS its) = true
  | .nil, _ => rfl
  | .consPlain idta r, h => by
    simp only [sibExclItems] at h
    simp only [closeChildrenS, sibExclItems]
    exact sibExclItems_closeChildrenS r h
  | .consSub idta c r, h => by
    simp only [sibExclItems, Bool.and_eq_true] at h
    simp only [closeChildrenS, sibExclItems, Bool.and_eq_true]
    exact ⟨sibExcl_closeMenuS c h.1, sibExclItems_closeChildrenS r h.2⟩
end

theorem sibExclItems_closeSiblingsAuxS (skip : Nat) : ∀ (j : Nat) (its : MItems),
    sibExclItems its = true → sibExclItems (closeSiblingsAuxS skip j its) = true
  | _, .nil, _ => rfl
  | j, .consPlain idta r, h => by
    simp only [sibExclItems] at h
    simp only [closeSiblingsAuxS, sibExclItems]
    exact sibExclItems_closeSiblingsAuxS skip (j + 1) r h
  | j, .consSub idta c r, h => by
    simp only [sibExclItems, Bool.and_eq_true] at h
    by_cases hj : j = skip
    · simp only [closeSiblingsAuxS, if_pos hj, sibExclItems, Bool.and_eq_true]
      exact ⟨h.1, sibExclItems_closeSiblingsAuxS skip (j + 1) r h.2⟩
    · simp only [closeSiblingsAuxS, if_neg hj, sibExclItems, Bool.and_eq_true]
      exact ⟨sibExcl_closeMenuS c h.1, sibExclItems_closeSiblingsAuxS skip (j + 1) r h.2⟩

theorem sibExclItems_setSub : ∀ (its : MItems) (i : Nat) (c : MTree),
    sibExclItems its = true → sibExcl c = true →
    sibExclItems (its.setSub i c) = true
  | .nil, _, _, h, _ => h
  | .consPlain idta r, 0, c, h, _ => h
  | .consSub idta c0 r, 0, c, h, hc => by
    simp only [sibExclItems, Bool.and_eq_true] at h
    simp only [MItems.setSub, sibExclItems, Bool.and_eq_true]
    exact ⟨hc, h.2⟩
  | .consPlain idta r, n + 1, c, h, hc => by
    simp only [sibExclItems] at h
    simp only [MItems.setSub, sibExclItems]
    exact sibExclItems_setSub r n c h hc
  | .consSub idta c0 r, n + 1, c, h, hc => by
    simp only [sibExclItems, Bool.and_eq_true] at h
    simp only [MItems.setSub, sibExclItems, Bool.and_eq_true]
    exact ⟨h.1, sibExclItems_setSub r n c h.2 hc⟩

theorem sibExcl_of_get? : ∀ (its : MItems) (i : Nat) (idta : IData) (c : MTree),
    sibExclItems its = true → its.get? i = some (idta, some c) → sibExcl c = true
  | .consPlain _ r, 0, _, _, _, hg => by simp [MItems.get?] at hg
  | .consSub idta0 c0 r, 0, idta, c, h, hg => by
    simp only [MItems.get?, Option.some.injEq, Prod.mk.injEq] at hg
    obtain ⟨_, hc⟩ := hg
    simp only [sibExclItems, Bool.and_eq_true] at h
    cases hc
    exact h.1
  | .consPlain _ r, n + 1, idta, c, h, hg => by
    simp only [sibExclItems] at h
    exact sibExcl_of_get? r n idta c h hg
  | .consSub _ c0 r, n + 1, idta, c, h, hg => by
    simp only [sibExclItems, Bool.and_eq_true] at h
    exact sibExcl_of_get? r n idta c h.2 hg

theorem openSubCount_setSub_closed : ∀ (its : MItems) (i : Nat) (c : MTree),
    c.data.isOpen = false → openSubCount (its.setSub i c) ≤ openSubCount its
  | .nil, _, _, _ => le_rfl
  | .consPlain idta r, 0, c, _ => le_rfl
  | .consSub idta c0 r, 0, c, hc => by
    simp [MItems.setSub, openSubCount, hc]
  | .consPlain idta r, n + 1, c, hc => by
    simp only [MItems.setSub, openSubCount]
    exact openSubCount_setSub_closed r n c hc
  | .consSub idta c0 r, n + 1, c, hc => by
    simp only [MItems.setSub, openSubCount]
    have := openSubCount_setSub_closed r n c hc
    omega

theorem openSubCount_setSub_same : ∀ (its : MItems) (i : Nat) (idta : IData)
    (c c2 : MTree), its.get? i = some (idta, some c) →
    c2.data.isOpen = c.data.isOpen →
    openSubCount (its.setSub i c2) = openSubCount its
  | .nil, _, _, _, _, hg, _ => by simp [MItems.get?] at hg
  | .consPlain _ r, 0, _, _, _, hg, _ => by simp [MItems.get?] at hg
  | .consSub idta0 c0 r, 0, idta, c, c2, hg, hsame => by
    simp only [MItems.get?, Option.some.injEq, Prod.mk.injEq] at hg
    obtain ⟨_, hc⟩ := hg
    cases hc
    simp [MItems.setSub, openSubCount, hsame]
  | .consPlain idta0 r, n + 1, idta, c, c2, hg, hsame => by
    simp only [MItems.get?] at hg
    simp only [MItems.setSub, openSubCount]
    rw [openSubCount_setSub_same r n idta c c2 hg hsame]
  | .consSub idta0 c0 r, n + 1, idta, c, c2, hg, hsame => by
    simp only [MItems.get?] at hg
    simp only [MItems.setSub, openSubCount]
    rw [openSubCount_setSub_same r n idta c c2 hg hsame]

theorem setSub_self : ∀ (its : MItems) (i : Nat) (idta : IData) (c : MTree),
    its.get? i = some (idta, some c) → its.setSub i c = its
  | .nil, _, _, _, hg => by simp [MItems.get?] at hg
  | .consPlain _ r, 0, _, _, hg => by simp [MItems.get?] at hg
  | .consSub idta0 c0 r, 0, idta, c, hg => by
    simp only [MItems.get?, Option.some.injEq, Prod.mk.injEq] at hg
    obtain ⟨_, hc⟩ := hg
    cases hc
    rfl
  | .consPlain idta0 r, n + 1, idta, c, hg => by
    simp only [MItems.get?] at hg
    simp only [MItems.setSub]
    rw [setSub_self r n idta c hg]
  | .consSub idta0 c0 r, n + 1, idta, c, hg => by
    simp only [MItems.get?] at hg
    simp only [MItems.setSub]
    rw [setSub_self r n idta c hg]

theorem setItem_self : ∀ (its : MItems) (i : Nat) (idta : IData) (c : MTree),
    its.get? i = some (idta, some c) → its.setItem i idta c = its
  | .nil, _, _, _, hg => by simp [MItems.get?] at hg
  | .consPlain _ r, 0, _, _, hg => by simp [MItems.get?] at hg
  | .consSub idta0 c0 r, 0, idta, c, hg => by
    simp only [MItems.get?, Option.some.injEq, Prod.mk.injEq] at hg
    obtain ⟨h1, hc⟩ := hg
    cases hc
    cases h1
    rfl
  | .consPlain idta0 r, n + 1, idta, c, hg => by
    simp only [MItems.get?] at hg
    simp only [MItems.setItem]
    rw [setItem_self r n idta c hg]
  | .consSub idta0 c0 r, n + 1, idta, c, hg => by
    simp only [MItems.get?] at hg
    simp only [MItems.setItem]
    rw [setItem_self r n idta c hg]

theorem openSubCount_rovingSetAux (target : Nat) : ∀ (j : Nat) (its : MItems),
    openSubCount (rovingSetAux target j its) = openSubCount its
  | _, .nil => rfl
  | j, .consPlain idta r => by
    simp [rovingSetAux, openSubCount, openSubCount_rovingSetAux target (j + 1) r]
  | j, .consSub idta c r => by
    simp [rovingSetAux, openSubCount, openSubCount_rovingSetAux target (j + 1) r]

theorem sibExclItems_rovingSetAux (target : Nat) : ∀ (j : Nat) (its : MItems),
    sibExclItems (rovingSetAux target j its) = sibExclItems its
  | _, .nil => rfl
  | j, .consPlain idta r => by
    simp [rovingSetAux, sibExclItems, sibExclItems_rovingSetAux target (j + 1) r]
  | j, .consSub idta c r => by
    simp [rovingSetAux, sibExclItems, sibExclItems_rovingSetAux target (j + 1) r]


theorem data_openChildS (t : MTree) (i : Nat) : (openChildS t i).data = t.data := by
  unfold openChildS
  cases hg : t.items.get? i with
  | none => rfl
  | some pr =>
    rcases pr with ⟨idta, o⟩
    cases o with
    | none => rfl
    | some c =>
      cases c with
      | node dc itsc =>
        by_cases hop : dc.isOpen = true <;> simp [MTree.data, hop]

theorem data_openMenuAtS : ∀ (p : List Nat) (t : MTree),
    (openMenuAtS p t).data = t.data
  | [], _ => rfl
  | [i], t => data_openChildS t i
  | i :: j :: rest, t => by
    unfold openMenuAtS
    cases hg : t.items.get? i with
    | none => rfl
    | some pr =>
      rcases pr with ⟨idta, o⟩
      cases o with
      | none => rfl
      | some c => rfl

theorem data_closeMenuAtS : ∀ (p : List Nat) (t : MTree),
    (closeMenuAtS p t).data = t.data
  | [], _ => rfl
  | [i], t => by
    unfold closeMenuAtS
    cases hg : t.items.get? i with
    | none => rfl
    | some pr =>
      rcases pr with ⟨idta, o⟩
      cases o with
      | none => rfl
      | some c => rfl
  | i :: j :: rest, t => by
    unfold closeMenuAtS
    cases hg : t.items.get? i with
    | none => rfl
    | some pr =>
      rcases pr with ⟨idta, o⟩
      cases o with
      | none => rfl
      | some c => rfl

theorem sibExcl_node_intro (d : NData) (its : MItems)
    (h1 : openSubCount its ≤ 1) (h2 : sibExclItems its = true) :
    sibExcl (MTree.node d its) = true := by
  simp [sibExcl, h1, h2]

theorem sibExcl_node_elim (d : NData) (its : MItems)
    (h : sibExcl (MTree.node d its) = true) :
    openSubCount its ≤ 1 ∧ sibExclItems its = true := by
  simpa [sibExcl] using h

theorem sibExcl_openChildS (t : MTree) (i : Nat) (h : sibExcl t = true) :
    sibExcl (openChildS t i) = true := by
  unfold openChildS
  cases hg : t.items.get? i with
  | none => exact h
  | some pr =>
    rcases pr with ⟨idta, o⟩
    cases o with
    | none => exact h
    | some c =>
      by_cases hop : c.data.isOpen = true
      · simpa [hop] using h
      · simp only [hop, Bool.false_eq_true, if_false]
        cases t with
        | node d its =>
          obtain ⟨hcnt, hitems⟩ := sibExcl_node_elim d its h
          simp only [MTree.items] at hg ⊢
          apply sibExcl_node_intro
          · have := openSubCount_openedItems its 0 i c
            simpa using this
          · exact sibExclItems_setSub _ i (setOpenS c)
              (sibExclItems_closeSiblingsAuxS i 0 its hitems)
              (by rw [sibExcl_setOpenS]
                  exact sibExcl_of_get? its i idta c hitems hg)

theorem sibExcl_closeChildAtS (t : MTree) (i : Nat) (h : sibExcl t = true) :
    sibExcl (closeMenuAtS [i] t) = true := by
  unfold closeMenuAtS
  cases hg : t.items.get? i with
  | none => exact h
  | some pr =>
    rcases pr with ⟨idta, o⟩
    cases o with
    | none => exact h
    | some c =>
      cases t with
      | node d its =>
        obtain ⟨hcnt, hitems⟩ := sibExcl_node_elim d its h
        simp only [MTree.items] at hg ⊢
        apply sibExcl_node_intro
        · have := openSubCount_setSub_closed its i (closeMenuS c) (closeMenuS_isOpen c)
          omega
        · exact sibExclItems_setSub its i (closeMenuS c) hitems
            (sibExcl_closeMenuS c (sibExcl_of_get? its i idta c hitems hg))

theorem sibExcl_descend (t : MTree) (i : Nat) (f : MTree → MTree)
    (hf : ∀ c, sibExcl c = true → sibExcl (f c) = true)
    (hdata : ∀ c, (f c).data = c.data) (h : sibExcl t = true)
    (idta : IData) (c : MTree) (hg : t.items.get? i = some (idta, some c)) :
    sibExcl (MTree.node t.data (t.items.setSub i (f c))) = true := by
  cases t with
  | node d its =>
    obtain ⟨hcnt, hitems⟩ := sibExcl_node_elim d its h
    simp only [MTree.items] at hg ⊢
    apply sibExcl_node_intro
    · rw [openSubCount_setSub_same its i idta c (f c) hg (by rw [hdata])]
      exact hcnt
    · exact sibExclItems_setSub its i (f c) hitems
        (hf c (sibExcl_of_get? its i idta c hitems hg))

theorem sibExcl_openMenuAtS : ∀ (p : List Nat) (t : MTree), sibExcl t = true →
    sibExcl (openMenuAtS p t) = true
  | [], _, h => h
  | [i], t, h => sibExcl_openChildS t i h
  | i :: j :: rest, t, h => by
    unfold openMenuAtS
    cases hg : t.items.get? i with
    | none => exact h
    | some pr =>
      rcases pr with ⟨idta, o⟩
      cases o with
      | none => exact h
      | some c =>
        exact sibExcl_descend t i (openMenuAtS (j :: rest))
          (fun c2 => sibExcl_openMenuAtS (j :: rest) c2)
          (data_openMenuAtS (j :: rest)) h idta c hg

theorem sibExcl_closeMenuAtS : ∀ (p : List Nat) (t : MTree), sibExcl t = true →
    sibExcl (closeMenuAtS p t) = true
  | [], _, h => h
  | [i], t, h => sibExcl_closeChildAtS t i h
  | i :: j :: rest, t, h => by
    unfold closeMenuAtS
    cases hg : t.items.get? i with
    | none => exact h
    | some pr =>
      rcases pr with ⟨idta, o⟩
      cases o with
      | none => exact h
      | some c =>
        exact sibExcl_descend t i (closeMenuAtS (j :: rest))
          (fun c2 => sibExcl_closeMenuAtS (j :: rest) c2)
          (data_closeMenuAtS (j :: rest)) h idta c hg

theorem sibExcl_focusItemRootS (t : MTree) (i : Int) :
    sibExcl (focusItemRootS t i) = sibExcl t := by
  unfold focusItemRootS
  by_cases hb : 0 ≤ i ∧ i < (t.items.length : Int)
  · rw [if_pos hb]
    cases t with
    | node d its =>
      simp [sibExcl, MTree.items, MTree.data, openSubCount_rovingSetAux,
        sibExclItems_rovingSetAux]
  · rw [if_neg hb]

theorem sibExcl_focusItemAtS (t : MTree) (p : List Nat) (i : Int) :
    sibExcl (focusItemAtS t p i) = sibExcl t := by
  cases p with
  | nil => exact sibExcl_focusItemRootS t i
  | cons a rest => rfl

theorem sibExcl_closeParentsFuelS (p : List Nat) : ∀ (n : Nat) (t : MTree),
    sibExcl t = true → sibExcl (closeParentsFuelS p n t) = true
  | 0, _, h => h
  | 1, _, h => h
  | n + 2, t, h =>
    sibExcl_closeParentsFuelS p (n + 1) _
      (sibExcl_closeMenuAtS (p.take (n + 1)) t h)

theorem sibExcl_applyOpS (o : OpS) (t : MTree) (h : sibExcl t = true) :
    sibExcl (applyOpS o t) = true := by
  cases o with
  | openAt p => exact sibExcl_openMenuAtS p t h
  | closeAt p => exact sibExcl_closeMenuAtS p t h
  | click q i =>
    simp only [applyOpS]
    have h1 : sibExcl (focusItemAtS t q (i : Int)) = true := by
      rw [sibExcl_focusItemAtS]; exact h
    cases hg : getNodeAt (focusItemAtS t q (i : Int)) (q ++ [i]) with
    | none => exact h1
    | some c =>
      by_cases hop : c.data.isOpen = true <;> simp only [hop]
      · simp only [if_true]
        exact sibExcl_closeMenuAtS (q ++ [i]) _ h1
      · simp only [Bool.false_eq_true, if_false]
        exact sibExcl_openMenuAtS (q ++ [i]) _ h1
  | keyEscape p => exact sibExcl_closeMenuAtS p t h
  | keyTab p =>
    exact sibExcl_closeParentsFuelS p p.length _ (sibExcl_closeMenuAtS p t h)
  | keyPrev p i =>
    simp only [applyOpS]
    cases getNodeAt t p with
    | none => exact h
    | some nd => rw [sibExcl_focusItemAtS]; exact h
  | keyNext p i =>
    simp only [applyOpS]
    cases getNodeAt t p with
    | none => exact h
    | some nd => rw [sibExcl_focusItemAtS]; exact h
  | keyHome p =>
    simp only [applyOpS]
    rw [sibExcl_focusItemAtS]; exact h
  | keyEnd p =>
    simp only [applyOpS]
    cases getNodeAt t p with
    | none => exact h
    | some nd => rw [sibExcl_focusItemAtS]; exact h
  | keyChar p i character =>
    simp only [applyOpS]
    cases getNodeAt t p with
    | none => exact h
    | some nd =>
      by_cases hm : focusNextCharacterMatchIndex nd.items.labelChars i character = -1
      · simp only [hm, if_true]; exact h
      · simp only [hm, if_false]
        rw [sibExcl_focusItemAtS]; exact h
  | outsideClick p => exact sibExcl_closeMenuAtS p t h


/- Initial-state lemmas. -/

mutual
theorem allClosed_of_initialFalse : ∀ t : MTree, initialS false t = true →
    allClosed t = true
  | .node d its, h => by
    simp only [initialS, Bool.and_eq_true, beq_iff_eq, Bool.or_eq_true] at h
    simp only [allClosed, Bool.and_eq_true]
    refine ⟨by simp [h.1.1.1.1], ?_⟩
    exact allClosedItems_of_initialItems false 0 its h.2
theorem allClosedItems_of_initialItems : ∀ (b : Bool) (j : Nat) (its : MItems),
    initialItemsS b j its = true → allClosedItems its = true
  | _, _, .nil, _ => rfl
  | b, j, .consPlain idta r, h => by
    simp only [initialItemsS, Bool.and_eq_true] at h
    simp only [allClosedItems]
    exact allClosedItems_of_initialItems b (j + 1) r h.2
  | b, j, .consSub idta c r, h => by
    simp only [initialItemsS, Bool.and_eq_true] at h
    simp only [allClosedItems, Bool.and_eq_true]
    exact ⟨allClosed_of_initialFalse c h.1.2,
      allClosedItems_of_initialItems b (j + 1) r h.2⟩
end

theorem openSubCount_of_allClosedItems : ∀ its : MItems,
    allClosedItems its = true → openSubCount its = 0
  | .nil, _ => rfl
  | .consPlain idta r, h => by
    simp only [allClosedItems] at h
    simp only [openSubCount]
    exact openSubCount_of_allClosedItems r h
  | .consSub idta c r, h => by
    simp only [allClosedItems, Bool.and_eq_true] at h
    have hc : c.data.isOpen = false := by
      cases c with
      | node dc itsc =>
        simp only [allClosed, Bool.and_eq_true] at h
        simpa [MTree.data] using h.1.1
    simp only [openSubCount, hc]
    simpa using openSubCount_of_allClosedItems r h.2

mutual
theorem sibExcl_of_allClosed : ∀ t : MTree, allClosed t = true → sibExcl t = true
  | .node d its, h => by
    simp only [allClosed, Bool.and_eq_true] at h
    exact sibExcl_node_intro d its
      (by rw [openSubCount_of_allClosedItems its h.2]; omega)
      (sibExclItems_of_allClosedItems its h.2)
theorem sibExclItems_of_allClosedItems : ∀ its : MItems,
    allClosedItems its = true → sibExclItems its = true
  | .nil, _ => rfl
  | .consPlain idta r, h => by
    simp only [allClosedItems] at h
    simp only [sibExclItems]
    exact sibExclItems_of_allClosedItems r h
  | .consSub idta c r, h => by
    simp only [allClosedItems, Bool.and_eq_true] at h
    simp only [sibExclItems, Bool.and_eq_true]
    exact ⟨sibExcl_of_allClosed c h.1, sibExclItems_of_allClosedItems r h.2⟩
end

theorem sibExcl_of_initial : ∀ t : MTree, initialS true t = true →
    sibExcl t = true
  | .node d its, h => by
    simp only [initialS, Bool.and_eq_true] at h
    have hac := allClosedItems_of_initialItems true 0 its h.2
    exact sibExcl_node_intro d its
      (by rw [openSubCount_of_allClosedItems its hac]; omega)
      (sibExclItems_of_allClosedItems its hac)

theorem sibExcl_of_reachS (t : MTree) (h : ReachS t) : sibExcl t = true := by
  induction h with
  | init t h0 => exact sibExcl_of_initial t h0
  | step o t _ ih => exact sibExcl_applyOpS o t ih

/- Roving-tabindex invariant of machine S. -/

theorem tabZeroCount_initialItems_pos : ∀ (j : Nat) (its : MItems), 1 ≤ j →
    initialItemsS true j its = true → tabZeroCount its = 0
  | _, .nil, _, _ => rfl
  | j, .consPlain idta r, hj, h => by
    simp only [initialItemsS, Bool.and_eq_true, beq_iff_eq] at h
    have hti : idta.tabIndex = -1 := by
      rw [h.1]
      simp [getItemTabIndex]
      omega
    simp [tabZeroCount, hti,
      tabZeroCount_initialItems_pos (j + 1) r (by omega) h.2]
  | j, .consSub idta c r, hj, h => by
    simp only [initialItemsS, Bool.and_eq_true, beq_iff_eq] at h
    have hti : idta.tabIndex = -1 := by
      rw [h.1.1]
      simp [getItemTabIndex]
      omega
    simp [tabZeroCount, hti,
      tabZeroCount_initialItems_pos (j + 1) r (by omega) h.2]

theorem tabZeroCount_initial (t : MTree) (h : initialS true t = true) :
    t.items.length = 0 ∨ tabZeroCount t.items = 1 := by
  cases t with
  | node d its =>
    simp only [initialS, Bool.and_eq_true] at h
    have h2 := h.2
    simp only [MTree.items]
    cases its with
    | nil => exact .inl rfl
    | consPlain idta r =>
      right
      simp only [initialItemsS, Bool.and_eq_true, beq_iff_eq] at h2
      have hti : idta.tabIndex = 0 := by rw [h2.1]; rfl
      simp [tabZeroCount, hti, tabZeroCount_initialItems_pos 1 r (by omega) h2.2]
    | consSub idta c r =>
      right
      simp only [initialItemsS, Bool.and_eq_true, beq_iff_eq] at h2
      have hti : idta.tabIndex = 0 := by rw [h2.1.1]; rfl
      simp [tabZeroCount, hti, tabZeroCount_initialItems_pos 1 r (by omega) h2.2]

theorem rootItems_openChildS (t : MTree) (i : Nat) :
    tabZeroCount (openChildS t i).items = tabZeroCount t.items ∧
    (openChildS t i).items.length = t.items.length := by
  unfold openChildS
  cases hg : t.items.get? i with
  | none => exact ⟨rfl, rfl⟩
  | some pr =>
    rcases pr with ⟨idta, o⟩
    cases o with
    | none => exact ⟨rfl, rfl⟩
    | some c =>
      cases c with
      | node dc itsc =>
        by_cases hop : dc.isOpen = true
        · simp [MTree.data, hop]
        · simp [MTree.data, hop, MTree.items, tabZeroCount_setSub,
            tabZeroCount_closeSiblingsAuxS, length_setSub,
            length_closeSiblingsAuxS]

theorem rootItems_openMenuAtS : ∀ (p : List Nat) (t : MTree),
    tabZeroCount (openMenuAtS p t).items = tabZeroCount t.items ∧
    (openMenuAtS p t).items.length = t.items.length
  | [], t => ⟨rfl, rfl⟩
  | [i], t => rootItems_openChildS t i
  | i :: j :: rest, t => by
    unfold openMenuAtS
    cases hg : t.items.get? i with
    | none => exact ⟨rfl, rfl⟩
    | some pr =>
      rcases pr with ⟨idta, o⟩
      cases o with
      | none => exact ⟨rfl, rfl⟩
      | some c =>
        simp [MTree.items, tabZeroCount_setSub, length_setSub]

theorem rootItems_closeMenuAtS : ∀ (p : List Nat) (t : MTree),
    tabZeroCount (closeMenuAtS p t).items = tabZeroCount t.items ∧
    (closeMenuAtS p t).items.length = t.items.length
  | [], t => ⟨rfl, rfl⟩
  | [i], t => by
    unfold closeMenuAtS
    cases hg : t.items.get? i with
    | none => exact ⟨rfl, rfl⟩
    | some pr =>
      rcases pr with ⟨idta, o⟩
      cases o with
      | none => exact ⟨rfl, rfl⟩
      | some c =>
        simp [MTree.items, tabZeroCount_setSub, length_setSub]
  | i :: j :: rest, t => by
    unfold closeMenuAtS
    cases hg : t.items.get? i with
    | none => exact ⟨rfl, rfl⟩
    | some pr =>
      rcases pr with ⟨idta, o⟩
      cases o with
      | none => exact ⟨rfl, rfl⟩
      | some c =>
        simp [MTree.items, tabZeroCount_setSub, length_setSub]

theorem rootItems_closeParentsFuelS (p : List Nat) : ∀ (n : Nat) (t : MTree),
    tabZeroCount (closeParentsFuelS p n t).items = tabZeroCount t.items ∧
    (closeParentsFuelS p n t).items.length = t.items.length
  | 0, t => ⟨rfl, rfl⟩
  | 1, t => ⟨rfl, rfl⟩
  | n + 2, t => by
    have h1 := rootItems_closeMenuAtS (p.take (n + 1)) t
    have h2 := rootItems_closeParentsFuelS p (n + 1) (closeMenuAtS (p.take (n + 1)) t)
    exact ⟨h2.1.trans h1.1, h2.2.trans h1.2⟩

theorem rootInv3_focusItemRootS (t : MTree) (i : Int)
    (h : t.items.length = 0 ∨ tabZeroCount t.items = 1) :
    (focusItemRootS t i).items.length = 0 ∨
    tabZeroCount (focusItemRootS t i).items = 1 := by
  unfold focusItemRootS
  by_cases hb : 0 ≤ i ∧ i < (t.items.length : Int)
  · rw [if_pos hb]
    right
    simp only [MTree.items]
    apply tabZeroCount_rovingSetAux i.toNat 0 t.items (by omega)
    obtain ⟨hb1, hb2⟩ := hb
    omega
  · rw [if_neg hb]
    exact h

theorem rootInv3_focusItemAtS (t : MTree) (p : List Nat) (i : Int)
    (h : t.items.length = 0 ∨ tabZeroCount t.items = 1) :
    (focusItemAtS t p i).items.length = 0 ∨
    tabZeroCount (focusItemAtS t p i).items = 1 := by
  cases p with
  | nil => exact rootInv3_focusItemRootS t i h
  | cons a rest => exact h

theorem rootInv3_applyOpS (o : OpS) (t : MTree)
    (h : t.items.length = 0 ∨ tabZeroCount t.items = 1) :
    (applyOpS o t).items.length = 0 ∨ tabZeroCount (applyOpS o t).items = 1 := by
  cases o with
  | openAt p =>
    simp only [applyOpS]
    have hp := rootItems_openMenuAtS p t
    rw [hp.1, hp.2]
    exact h
  | closeAt p =>
    simp only [applyOpS]
    have hp := rootItems_closeMenuAtS p t
    rw [hp.1, hp.2]
    exact h
  | click q i =>
    simp only [applyOpS]
    have h1 := rootInv3_focusItemAtS t q (i : Int) h
    cases hg : getNodeAt (focusItemAtS t q (i : Int)) (q ++ [i]) with
    | none => exact h1
    | some c =>
      by_cases hop : c.data.isOpen = true
      · simp only [hop, if_true]
        have hp := rootItems_closeMenuAtS (q ++ [i]) (focusItemAtS t q (i : Int))
        rw [hp.1, hp.2]
        exact h1
      · simp only [hop, Bool.false_eq_true, if_false]
        have hp := rootItems_openMenuAtS (q ++ [i]) (focusItemAtS t q (i : Int))
        rw [hp.1, hp.2]
        exact h1
  | keyEscape p =>
    simp only [applyOpS]
    have hp := rootItems_closeMenuAtS p t
    rw [hp.1, hp.2]
    exact h
  | keyTab p =>
    simp only [applyOpS]
    have h1 := rootItems_closeMenuAtS p t
    have h2 := rootItems_closeParentsFuelS p p.length (closeMenuAtS p t)
    rw [h2.1, h2.2, h1.1, h1.2]
    exact h
  | keyPrev p i =>
    simp only [applyOpS]
    cases getNodeAt t p with
    | none => exact h
    | some nd => exact rootInv3_focusItemAtS t p _ h
  | keyNext p i =>
    simp only [applyOpS]
    cases getNodeAt t p with
    | none => exact h
    | some nd => exact rootInv3_focusItemAtS t p _ h
  | keyHome p =>
    simp only [applyOpS]
    exact rootInv3_focusItemAtS t p _ h
  | keyEnd p =>
    simp only [applyOpS]
    cases getNodeAt t p with
    | none => exact h
    | some nd => exact rootInv3_focusItemAtS t p _ h
  | keyChar p i character =>
    simp only [applyOpS]
    cases getNodeAt t p with
    | none => exact h
    | some nd =>
      by_cases hm : focusNextCharacterMatchIndex nd.items.labelChars i character = -1
      · simp only [hm, if_true]
        exact h
      · simp only [hm, if_false]
        exact rootInv3_focusItemAtS t p _ h
  | outsideClick p =>
    simp only [applyOpS]
    have hp := rootItems_closeMenuAtS p t
    rw [hp.1, hp.2]
    exact h

theorem rootInv3_of_reachS (t : MTree) (h : ReachS t) :
    t.items.length = 0 ∨ tabZeroCount t.items = 1 := by
  induction h with
  | init t h0 => exact tabZeroCount_initial t h0
  | step o t _ ih => exact rootInv3_applyOpS o t ih


/- No-op lemmas (claim C7). -/

theorem closeItemT_closed_eq (inst skip rovy : Bool) (idta : IData) :
    ∀ t : MTree, t.data.isOpen = false →
    closeItemT inst skip rovy idta t = (idta, t)
  | .node d its, h => by
    simp only [MTree.data] at h
    simp [closeItemT, h]

theorem getNodeAt_cons_elim (t : MTree) (i : Nat) (p : List Nat) (c : MTree)
    (hg : getNodeAt t (i :: p) = some c) :
    ∃ idta c0, t.items.get? i = some (idta, some c0) ∧ getNodeAt c0 p = some c := by
  unfold getNodeAt at hg
  cases hgi : t.items.get? i with
  | none => rw [hgi] at hg; simp at hg
  | some pr =>
    rcases pr with ⟨idta, o⟩
    cases o with
    | none => rw [hgi] at hg; simp at hg
    | some c0 =>
      rw [hgi] at hg
      exact ⟨idta, c0, rfl, hg⟩

theorem openMenuAtS_noop : ∀ (p : List Nat) (t : MTree) (c : MTree),
    getNodeAt t p = some c → c.data.isOpen = true → openMenuAtS p t = t
  | [], _, _, _, _ => rfl
  | [i], t, c, hg, hop => by
    obtain ⟨idta, c0, hgi, hg0⟩ := getNodeAt_cons_elim t i [] c hg
    simp only [getNodeAt, Option.some.injEq] at hg0
    cases hg0
    simp [openMenuAtS, openChildS, hgi, hop]
  | i :: j :: rest, t, c, hg, hop => by
    obtain ⟨idta, c0, hgi, hg0⟩ := getNodeAt_cons_elim t i (j :: rest) c hg
    have hrec := openMenuAtS_noop (j :: rest) c0 c hg0 hop
    simp only [openMenuAtS, hgi]
    rw [hrec, setSub_self t.items i idta c0 hgi, node_eta]

theorem closeMenuAtS_noop : ∀ (p : List Nat) (t : MTree) (c : MTree),
    getNodeAt t p = some c → c.data.isOpen = false → closeMenuAtS p t = t
  | [], _, _, _, _ => rfl
  | [i], t, c, hg, hop => by
    obtain ⟨idta, c0, hgi, hg0⟩ := getNodeAt_cons_elim t i [] c hg
    simp only [getNodeAt, Option.some.injEq] at hg0
    cases hg0
    simp only [closeMenuAtS, hgi]
    rw [closeMenuS_closed_eq c hop, setSub_self t.items i idta c hgi,
      node_eta]
  | i :: j :: rest, t, c, hg, hop => by
    obtain ⟨idta, c0, hgi, hg0⟩ := getNodeAt_cons_elim t i (j :: rest) c hg
    have hrec := closeMenuAtS_noop (j :: rest) c0 c hg0 hop
    simp only [closeMenuAtS, hgi]
    rw [hrec, setSub_self t.items i idta c0 hgi, node_eta]

theorem openMenuAtT_noop : ∀ (b : Bool) (p : List Nat) (t : MTree) (c : MTree),
    getNodeAt t p = some c → c.data.isOpen = true → openMenuAtT b p t = t
  | _, [], _, _, _, _ => rfl
  | b, [i], t, c, hg, hop => by
    obtain ⟨idta, c0, hgi, hg0⟩ := getNodeAt_cons_elim t i [] c hg
    simp only [getNodeAt, Option.some.injEq] at hg0
    cases hg0
    simp [openMenuAtT, openChildT, hgi, hop]
  | b, i :: j :: rest, t, c, hg, hop => by
    obtain ⟨idta, c0, hgi, hg0⟩ := getNodeAt_cons_elim t i (j :: rest) c hg
    have hrec := openMenuAtT_noop false (j :: rest) c0 c hg0 hop
    simp only [openMenuAtT, hgi]
    rw [hrec, setSub_self t.items i idta c0 hgi, node_eta]

theorem closeMenuAtT_noop : ∀ (b : Bool) (p : List Nat) (t : MTree) (c : MTree),
    getNodeAt t p = some c → c.data.isOpen = false → closeMenuAtT b p t = t
  | _, [], _, _, _, _ => rfl
  | b, [i], t, c, hg, hop => by
    obtain ⟨idta, c0, hgi, hg0⟩ := getNodeAt_cons_elim t i [] c hg
    simp only [getNodeAt, Option.some.injEq] at hg0
    cases hg0
    simp only [closeMenuAtT, hgi]
    rw [closeItemT_closed_eq false false b idta c hop,
      setItem_self t.items i idta c hgi, node_eta]
  | b, i :: j :: rest, t, c, hg, hop => by
    obtain ⟨idta, c0, hgi, hg0⟩ := getNodeAt_cons_elim t i (j :: rest) c hg
    have hrec := closeMenuAtT_noop false (j :: rest) c0 c hg0 hop
    simp only [closeMenuAtT, hgi]
    rw [hrec, setSub_self t.items i idta c0 hgi, node_eta]

/- Cascade lemmas for machine T (claim C2). -/

theorem closedBelowOk_elim_open (d : NData) (its : MItems)
    (h : closedBelowOk (MTree.node d its) = true) (hop : d.isOpen = true) :
    closedBelowOkItems its = true := by
  simpa [closedBelowOk, hop] using h

theorem closedBelowOk_elim_closed (d : NData) (its : MItems)
    (h : closedBelowOk (MTree.node d its) = true) (hop : d.isOpen = false) :
    allClosedItems its = true := by
  simpa [closedBelowOk, hop] using h

theorem closedBelowOk_of_get? : ∀ (its : MItems) (i : Nat) (idta : IData)
    (c : MTree), closedBelowOkItems its = true →
    its.get? i = some (idta, some c) → closedBelowOk c = true
  | .consPlain _ r, 0, _, _, _, hg => by simp [MItems.get?] at hg
  | .consSub idta0 c0 r, 0, idta, c, h, hg => by
    simp only [MItems.get?, Option.some.injEq, Prod.mk.injEq] at hg
    obtain ⟨_, hc⟩ := hg
    cases hc
    simp only [closedBelowOkItems, Bool.and_eq_true] at h
    exact h.1
  | .consPlain _ r, n + 1, idta, c, h, hg => by
    simp only [closedBelowOkItems] at h
    exact closedBelowOk_of_get? r n idta c h hg
  | .consSub _ c0 r, n + 1, idta, c, h, hg => by
    simp only [closedBelowOkItems, Bool.and_eq_true] at h
    exact closedBelowOk_of_get? r n idta c h.2 hg

mutual
theorem allClosed_getNodeAt : ∀ (t : MTree) (p : List Nat) (c : MTree),
    allClosed t = true → getNodeAt t p = some c → c.data.isOpen = false
  | .node d its, [], c, hac, hg => by
    simp only [getNodeAt, Option.some.injEq] at hg
    cases hg
    simp only [allClosed, Bool.and_eq_true] at hac
    simpa [MTree.data] using hac.1
  | .node d its, i :: rest, c, hac, hg => by
    simp only [allClosed, Bool.and_eq_true] at hac
    obtain ⟨idta, c0, hgi, hg0⟩ :=
      getNodeAt_cons_elim (MTree.node d its) i rest c hg
    simp only [MTree.items] at hgi
    exact allClosedItems_getNodeAt its i idta c0 rest c hac.2 hgi hg0
theorem allClosedItems_getNodeAt : ∀ (its : MItems) (i : Nat) (idta : IData)
    (c0 : MTree) (rest : List Nat) (c : MTree), allClosedItems its = true →
    its.get? i = some (idta, some c0) → getNodeAt c0 rest = some c →
    c.data.isOpen = false
  | .consPlain _ r, 0, _, _, _, _, _, hg, _ => by simp [MItems.get?] at hg
  | .consSub idta0 c0' r, 0, idta, c0, rest, c, hac, hg, hg0 => by
    simp only [MItems.get?, Option.some.injEq, Prod.mk.injEq] at hg
    obtain ⟨_, hc⟩ := hg
    cases hc
    simp only [allClosedItems, Bool.and_eq_true] at hac
    exact allClosed_getNodeAt c0' rest c hac.1 hg0
  | .consPlain _ r, n + 1, idta, c0, rest, c, hac, hg, hg0 => by
    simp only [allClosedItems] at hac
    exact allClosedItems_getNodeAt r n idta c0 rest c hac hg hg0
  | .consSub _ c0' r, n + 1, idta, c0, rest, c, hac, hg, hg0 => by
    simp only [allClosedItems, Bool.and_eq_true] at hac
    exact allClosedItems_getNodeAt r n idta c0 rest c hac.2 hg hg0
end

mutual
theorem closeItemT_allClosed : ∀ (inst skip rovy : Bool) (idta : IData)
    (t : MTree), closedBelowOk t = true →
    allClosed (closeItemT inst skip rovy idta t).2 = true
  | inst, skip, rovy, idta, .node d its, hcb => by
    by_cases hop : d.isOpen = true
    · unfold closeItemT
      rw [if_pos hop]
      simp only [allClosed, closeDataT, Bool.and_eq_true]
      exact ⟨rfl, closeChildrenT_allClosed its (closedBelowOk_elim_open d its hcb hop)⟩
    · unfold closeItemT
      rw [if_neg hop]
      simp only [Bool.not_eq_true] at hop
      simp only [allClosed, Bool.and_eq_true, hop]
      exact ⟨rfl, closedBelowOk_elim_closed d its hcb hop⟩
theorem closeChildrenT_allClosed : ∀ its : MItems,
    closedBelowOkItems its = true → allClosedItems (closeChildrenT its) = true
  | .nil, _ => rfl
  | .consPlain idta r, h => by
    simp only [closedBelowOkItems] at h
    simp only [closeChildrenT, allClosedItems]
    exact closeChildrenT_allClosed r h
  | .consSub idta c r, h => by
    simp only [closedBelowOkItems, Bool.and_eq_true] at h
    simp only [closeChildrenT, allClosedItems, Bool.and_eq_true]
    exact ⟨closeItemT_allClosed true true false idta c h.1,
      closeChildrenT_allClosed r h.2⟩
end

mutual
theorem closeMenuS_allClosed : ∀ t : MTree, closedBelowOk t = true →
    allClosed (closeMenuS t) = true
  | .node d its, hcb => by
    by_cases hop : d.isOpen = true
    · unfold closeMenuS
      rw [if_pos hop]
      simp only [allClosed, closeDataS, Bool.and_eq_true]
      exact ⟨rfl, closeChildrenS_allClosed its (closedBelowOk_elim_open d its hcb hop)⟩
    · unfold closeMenuS
      rw [if_neg hop]
      simp only [Bool.not_eq_true] at hop
      simp only [allClosed, Bool.and_eq_true, hop]
      exact ⟨rfl, closedBelowOk_elim_closed d its hcb hop⟩
theorem closeChildrenS_allClosed : ∀ its : MItems,
    closedBelowOkItems its = true → allClosedItems (closeChildrenS its) = true
  | .nil, _ => rfl
  | .consPlain idta r, h => by
    simp only [closedBelowOkItems] at h
    simp only [closeChildrenS, allClosedItems]
    exact closeChildrenS_allClosed r h
  | .consSub idta c r, h => by
    simp only [closedBelowOkItems, Bool.and_eq_true] at h
    simp only [closeChildrenS, allClosedItems, Bool.and_eq_true]
    exact ⟨closeMenuS_allClosed c h.1, closeChildrenS_allClosed r h.2⟩
end

mutual
theorem closeItemT_path : ∀ (inst skip rovy : Bool) (idta : IData) (t : MTree),
    closedBelowOk t = true → t.data.isOpen = true →
    ∀ (p : List Nat) (c : MTree), getNodeAt t p = some c →
    c.data.isOpen = true →
    ∃ c2, getNodeAt (closeItemT inst skip rovy idta t).2 p = some c2 ∧
      c2.data.isOpen = false ∧
      c2.data.lastCloseInstant = some (if p = [] then inst else true)
  | inst, skip, rovy, idta, .node d its, hcb, hop, [], c, hg, hc => by
    simp only [MTree.data] at hop
    unfold closeItemT
    rw [if_pos hop]
    refine ⟨MTree.node (closeDataT inst d) (closeChildrenT its), rfl, rfl, ?_⟩
    simp [closeDataT, MTree.data]
  | inst, skip, rovy, idta, .node d its, hcb, hop, i :: rest, c, hg, hc => by
    simp only [MTree.data] at hop
    obtain ⟨idta0, c0, hgi, hg0⟩ :=
      getNodeAt_cons_elim (MTree.node d its) i rest c hg
    simp only [MTree.items] at hgi
    obtain ⟨idta2, c02, hgi2, c2, hgc2, hcl2, hmk2⟩ :=
      closeChildrenT_path its (closedBelowOk_elim_open d its hcb hop)
        i idta0 c0 rest c hgi hg0 hc
    unfold closeItemT
    rw [if_pos hop]
    refine ⟨c2, ?_, hcl2, by simpa using hmk2⟩
    unfold getNodeAt
    simp only [MTree.items]
    rw [hgi2]
    exact hgc2
theorem closeChildrenT_path : ∀ (its : MItems),
    closedBelowOkItems its = true →
    ∀ (i : Nat) (idta0 : IData) (c0 : MTree) (rest : List Nat) (c : MTree),
    its.get? i = some (idta0, some c0) → getNodeAt c0 rest = some c →
    c.data.isOpen = true →
    ∃ idta2 c02, (closeChildrenT its).get? i = some (idta2, some c02) ∧
      ∃ c2, getNodeAt c02 rest = some c2 ∧ c2.data.isOpen = false ∧
        c2.data.lastCloseInstant = some true
  | .consPlain _ r, _, 0, _, _, _, _, hg, _, _ => by simp [MItems.get?] at hg
  | .consSub idta0' c0' r, hcb, 0, idta0, c0, rest, c, hgi, hg0, hc => by
    simp only [MItems.get?, Option.some.injEq, Prod.mk.injEq] at hgi
    obtain ⟨hid, hcs⟩ := hgi
    cases hcs
    cases hid
    simp only [closedBelowOkItems, Bool.and_eq_true] at hcb
    by_cases hop0 : c0'.data.isOpen = true
    · obtain ⟨c2, hgc2, hcl2, hmk2⟩ :=
        closeItemT_path true true false idta0' c0' hcb.1 hop0 rest c hg0 hc
      refine ⟨(closeItemT true true false idta0' c0').1,
        (closeItemT true true false idta0' c0').2, rfl, c2, hgc2, hcl2, ?_⟩
      rw [hmk2]
      cases rest <;> simp
    · simp only [Bool.not_eq_true] at hop0
      have hac : allClosed c0' = true := by
        cases c0' with
        | node d0 its0 =>
          simp only [MTree.data] at hop0
          simp only [allClosed, Bool.and_eq_true, hop0]
          exact ⟨rfl, closedBelowOk_elim_closed d0 its0 hcb.1 hop0⟩
      have := allClosed_getNodeAt c0' rest c hac hg0
      rw [this] at hc
      cases hc
  | .consPlain idta0' r, hcb, n + 1, idta0, c0, rest, c, hgi, hg0, hc => by
    simp only [closedBelowOkItems] at hcb
    simp only [MItems.get?] at hgi
    obtain ⟨idta2, c02, hgi2, hrest⟩ :=
      closeChildrenT_path r hcb n idta0 c0 rest c hgi hg0 hc
    exact ⟨idta2, c02, hgi2, hrest⟩
  | .consSub idta0' c0' r, hcb, n + 1, idta0, c0, rest, c, hgi, hg0, hc => by
    simp only [closedBelowOkItems, Bool.and_eq_true] at hcb
    simp only [MItems.get?] at hgi
    obtain ⟨idta2, c02, hgi2, hrest⟩ :=
      closeChildrenT_path r hcb.2 n idta0 c0 rest c hgi hg0 hc
    exact ⟨idta2, c02, hgi2, hrest⟩
end


theorem get?_setSub_ne : ∀ (its : MItems) (i : Nat) (c : MTree) (k : Nat),
    k ≠ i → (its.setSub i c).get? k = its.get? k
  | .nil, _, _, _, _ => rfl
  | .consPlain _ r, 0, c, 0, h => absurd rfl h
  | .consPlain _ r, 0, c, k + 1, _ => rfl
  | .consSub _ c0 r, 0, c, 0, h => absurd rfl h
  | .consSub _ c0 r, 0, c, k + 1, _ => rfl
  | .consPlain _ r, i + 1, c, 0, _ => rfl
  | .consSub _ c0 r, i + 1, c, 0, _ => rfl
  | .consPlain _ r, i + 1, c, k + 1, h => by
    simpa [MItems.setSub, MItems.get?] using get?_setSub_ne r i c k (by omega)
  | .consSub _ c0 r, i + 1, c, k + 1, h => by
    simpa [MItems.setSub, MItems.get?] using get?_setSub_ne r i c k (by omega)

theorem get?_closeSiblingsAuxS (skip : Nat) : ∀ (its : MItems) (j k : Nat),
    (closeSiblingsAuxS skip j its).get? k =
      (its.get? k).map (fun pr =>
        (pr.1, pr.2.map (fun c => if j + k = skip then c else closeMenuS c)))
  | .nil, _, _ => rfl
  | .consPlain idta r, j, 0 => by
    simp [closeSiblingsAuxS, MItems.get?]
  | .consPlain idta r, j, k + 1 => by
    have hrec := get?_closeSiblingsAuxS skip r (j + 1) k
    have harg : (j + 1) + k = j + (k + 1) := by omega
    rw [harg] at hrec
    simpa [closeSiblingsAuxS, MItems.get?] using hrec
  | .consSub idta c r, j, 0 => by
    by_cases h : j = skip
    · simp [closeSiblingsAuxS, h, MItems.get?]
    · have h0 : ¬ (j + 0 = skip) := by omega
      simp [closeSiblingsAuxS, h, h0, MItems.get?]
  | .consSub idta c r, j, k + 1 => by
    have hrec := get?_closeSiblingsAuxS skip r (j + 1) k
    have harg : (j + 1) + k = j + (k + 1) := by omega
    rw [harg] at hrec
    by_cases h : j = skip <;>
      simpa [closeSiblingsAuxS, h, MItems.get?] using hrec

/- ===================================================================
   Claims C1, C2, C3, C7.
   =================================================================== -/

/-- C1: for every menu tree, every state reachable from the
constructor-initial state by open/close/click (and keyboard) operations has,
at every node, at most one item whose submenu is open; and completing
openMenu on a node closes every open sibling submenu: after openChildS on
item i, the submenu of every item j other than i is closed. -/
theorem siblingExclusivity :
    (∀ t : MTree, ReachS t → sibExcl t = true) ∧
    (∀ (t : MTree) (i : Nat) (idta : IData) (c : MTree),
      t.items.get? i = some (idta, some c) → c.data.isOpen = false →
      ∀ (j : Nat) (jd : IData) (cj : MTree), j ≠ i →
        (openChildS t i).items.get? j = some (jd, some cj) →
        cj.data.isOpen = false) := by
  constructor
  · exact sibExcl_of_reachS
  · intro t i idta c hg hop j jd cj hne hg2
    cases t with
    | node d its =>
      cases c with
      | node dc itsc =>
        simp only [MTree.data] at hop
        simp only [MTree.items] at hg
        simp only [openChildS, MTree.items, hg, MTree.data, hop,
          Bool.false_eq_true, if_false] at hg2
        rw [get?_setSub_ne _ i _ j hne, get?_closeSiblingsAuxS i its 0 j]
          at hg2
        cases hgj : its.get? j with
        | none => rw [hgj] at hg2; simp at hg2
        | some pr =>
          rcases pr with ⟨jd0, o⟩
          cases o with
          | none => rw [hgj] at hg2; simp at hg2
          | some cj0 =>
            rw [hgj] at hg2
            have hij : ¬ (0 + j = i) := by omega
            simp only [Option.map_some, Option.map, hij, if_false,
              Option.some.injEq, Prod.mk.injEq] at hg2
            obtain ⟨_, hcj⟩ := hg2
            rw [← hcj]
            exact closeMenuS_isOpen cj0

/-- Witness for siblingExclusivity: the two-item initial menubar is
reachable and sibling-exclusive, and opening the first item of a menubar
whose second submenu is open closes that sibling submenu. -/
theorem siblingExclusivity_witness :
    sibExcl exRootTwo = true ∧
    (closeMenuS exSubLeafOpen).data.isOpen = false := by
  refine ⟨siblingExclusivity.1 exRootTwo (ReachS.init _ (by decide)), ?_⟩
  exact siblingExclusivity.2 exRootTwoSubs 0 { tabIndex := 0, firstChar := 'a' }
    exSubLeaf rfl rfl 1 { tabIndex := -1, firstChar := 'b' }
    (closeMenuS exSubLeafOpen) (by decide) rfl

/-- C2: in the part_000 transition variant, closing an open node (via its
own strategy: closeInstantly false) closes the node and its whole subtree
within the same step (animation completion aside): the resulting subtree is
fully closed, the node records its own strategy (lastCloseInstant
some false), and every descendant that was open records the instant
strategy (lastCloseInstant some true); the synchronous closeMenu of
src/src/menu.ts likewise closes the whole subtree.  The hypothesis
closedBelowOk states the reachable-state property that closed nodes have
closed subtrees. -/
theorem closeCascade (parentIsRoot : Bool) (idta : IData) (t : MTree)
    (hcb : closedBelowOk t = true) (hop : t.data.isOpen = true) :
    allClosed (closeItemT false false parentIsRoot idta t).2 = true ∧
    (closeItemT false false parentIsRoot idta t).2.data.lastCloseInstant
      = some false ∧
    (∀ (p : List Nat) (c : MTree), p ≠ [] → getNodeAt t p = some c →
      c.data.isOpen = true →
      ∃ c2,
        getNodeAt (closeItemT false false parentIsRoot idta t).2 p = some c2 ∧
        c2.data.isOpen = false ∧ c2.data.lastCloseInstant = some true) ∧
    allClosed (closeMenuS t) = true := by
  refine ⟨closeItemT_allClosed false false parentIsRoot idta t hcb, ?_, ?_,
    closeMenuS_allClosed t hcb⟩
  · obtain ⟨c2, hgc, hcl, hmk⟩ :=
      closeItemT_path false false parentIsRoot idta t hcb hop [] t rfl hop
    simp only [getNodeAt, Option.some.injEq] at hgc
    rw [← hgc] at hmk
    simpa using hmk
  · intro p c hpne hg hc
    obtain ⟨c2, hgc, hcl, hmk⟩ :=
      closeItemT_path false false parentIsRoot idta t hcb hop p c hg hc
    refine ⟨c2, hgc, hcl, ?_⟩
    rw [hmk]
    simp [hpne]

/-- Witness for closeCascade at the open two-level subtree: the whole
subtree is closed, with the top closed by its own strategy. -/
theorem closeCascade_witness :
    allClosed
      (closeItemT false false false { tabIndex := -1, firstChar := 'c' }
        exOpenDeep).2 = true ∧
    (closeItemT false false false { tabIndex := -1, firstChar := 'c' }
      exOpenDeep).2.data.lastCloseInstant = some false := by
  have h := closeCascade false { tabIndex := -1, firstChar := 'c' } exOpenDeep
    (by decide) (by decide)
  exact ⟨h.1, h.2.1⟩

/-- C3 amended: in the src/src/menu.ts variant the roving-tabindex invariant
holds: every reachable state with a nonempty root items list has exactly one
root trigger with tabIndex 0 (the first item initially, preserved by every
operation).  In the part_000 transition variant the claim as stated fails,
because openMenu removes the open item's trigger from the tab order; see
the counterexample. -/
theorem rovingTabindexS (t : MTree) (h : ReachS t)
    (hne : t.items.length ≠ 0) : tabZeroCount t.items = 1 := by
  rcases rootInv3_of_reachS t h with h0 | h1
  · exact absurd h0 hne
  · exact h1

/-- Witness for rovingTabindexS at the initial two-item menubar. -/
theorem rovingTabindexS_witness : tabZeroCount exRootTwo.items = 1 :=
  rovingTabindexS exRootTwo (ReachS.init _ (by decide)) (by decide)

/-- C3 counterexample: in the part_000 transition variant, clicking the
first root item of an initial one-item menubar opens its submenu and the
deferred step sets that trigger's tabIndex to -1, reaching a state in which
no root trigger has tabIndex 0 — the claim requires exactly one at every
reachable state. -/
theorem rovingTabindex_counterexample :
    initialS true exRootOneSub = true ∧
    ReachT (applyOpT (.click [] 0) exRootOneSub) ∧
    (applyOpT (.click [] 0) exRootOneSub).items.length ≠ 0 ∧
    tabZeroCount (applyOpT (.click [] 0) exRootOneSub).items = 0 := by
  refine ⟨by decide, ReachT.step _ _ (ReachT.init _ (by decide)), by decide,
    by decide⟩

/-- C7: openMenu on an already-open node, closeMenu on an already-closed
node, and either call on the root (which in both modelled variants is not
toggleable: variant S guards isRoot, variant T a menubar root fails
isToggleable) leave the whole tree state — isOpen, aria-expanded, display,
listener registration, tabindexes, and every other node — unchanged, and the
total Lean functions raise no exception. -/
theorem policyNoOps (t : MTree) (p : List Nat) :
    (∀ c, getNodeAt t p = some c → c.data.isOpen = true →
      openMenuAtS p t = t ∧ openMenuAtT true p t = t) ∧
    (∀ c, getNodeAt t p = some c → c.data.isOpen = false →
      closeMenuAtS p t = t ∧ closeMenuAtT true p t = t) ∧
    openMenuAtS [] t = t ∧ closeMenuAtS [] t = t ∧
    openMenuAtT true [] t = t ∧ closeMenuAtT true [] t = t :=
  ⟨fun c hg hop =>
      ⟨openMenuAtS_noop p t c hg hop, openMenuAtT_noop true p t c hg hop⟩,
    fun c hg hop =>
      ⟨closeMenuAtS_noop p t c hg hop, closeMenuAtT_noop true p t c hg hop⟩,
    rfl, rfl, rfl, rfl⟩

/-- Witness for policyNoOps: opening the already-open second submenu,
closing the already-closed first submenu, and opening the root are all
no-ops on the two-item menubar. -/
theorem policyNoOps_witness :
    openMenuAtS [1] exRootTwoSubs = exRootTwoSubs ∧
    closeMenuAtS [0] exRootTwoSubs = exRootTwoSubs ∧
    openMenuAtS [] exRootTwoSubs = exRootTwoSubs := by
  refine ⟨?_, ?_, (policyNoOps exRootTwoSubs []).2.2.1⟩
  · exact ((policyNoOps exRootTwoSubs [1]).1 exSubLeafOpen rfl rfl).1
  · exact ((policyNoOps exRootTwoSubs [0]).2.1 exSubLeaf rfl rfl).1


/- ===================================================================
   Claims C4, C9, C10, C8, C5, C6.
   =================================================================== -/

/-- C4: for every items list and current index i, a printable-character
keypress focuses the first index j with i < j < length matching the typed
character case-insensitively; only if no such j exists does the search wrap
to [0, i); if no index matches in either range the result is -1 and focus
does not move; in particular with first letters [A, B, C, A] and focus at
index 0, pressing a moves focus to index 3. -/
theorem charSearchOrder (labels : List Char) (i : Nat) (character : Char)
    (hi : i < labels.length) :
    (∀ j, i < j → j < labels.length → matchesAt labels character j →
      (∀ k, i < k → k < j → ¬ matchesAt labels character k) →
      focusNextCharacterMatchIndex labels i character = (j : Int)) ∧
    ((∀ j, i < j → j < labels.length → ¬ matchesAt labels character j) →
      ∀ j, j < i → matchesAt labels character j →
      (∀ k, k < j → ¬ matchesAt labels character k) →
      focusNextCharacterMatchIndex labels i character = (j : Int)) ∧
    ((∀ j, j < labels.length → j ≠ i → ¬ matchesAt labels character j) →
      focusNextCharacterMatchIndex labels i character = -1) ∧
    focusNextCharacterMatchIndex ['A', 'B', 'C', 'A'] 0 'a' = 3 := by
  refine ⟨?_, ?_, ?_, by decide⟩
  · intro j hij hjlen hm hfirst
    have hfound : getNextCharacterMatch labels character (i + 1) labels.length
        = (j : Int) :=
      getNextCharacterMatch_found labels character (i + 1) labels.length j
        (by omega) hjlen hm (fun k hk1 hk2 => hfirst k (by omega) hk2)
    unfold focusNextCharacterMatchIndex
    rw [hfound]
    have : ((j : Int)) ≠ -1 := by omega
    simp [this]
  · intro hafter j hji hm hfirst
    have hnone : getNextCharacterMatch labels character (i + 1) labels.length
        = -1 :=
      getNextCharacterMatch_none labels character (i + 1) labels.length
        (fun k hk1 hk2 => hafter k (by omega) hk2)
    have hfound : getNextCharacterMatch labels character 0 i = (j : Int) :=
      getNextCharacterMatch_found labels character 0 i j (Nat.zero_le j) hji hm
        (fun k _ hk2 => hfirst k hk2)
    unfold focusNextCharacterMatchIndex
    rw [hnone]
    simp [hfound]
  · intro hnomatch
    have hnone1 : getNextCharacterMatch labels character (i + 1) labels.length
        = -1 :=
      getNextCharacterMatch_none labels character (i + 1) labels.length
        (fun k hk1 hk2 => hnomatch k hk2 (by omega))
    have hnone2 : getNextCharacterMatch labels character 0 i = -1 :=
      getNextCharacterMatch_none labels character 0 i
        (fun k _ hk2 => hnomatch k (by omega) (by omega))
    unfold focusNextCharacterMatchIndex
    rw [hnone1]
    simp [hnone2]

/-- Witness for charSearchOrder at labels [A, B, C, A], i = 0,
character a: the forward range has no match and the wrap is empty,
yet clause one applies at j = 3. -/
theorem charSearchOrder_witness :
    focusNextCharacterMatchIndex ['A', 'B', 'C', 'A'] 0 'a' = 3 :=
  (charSearchOrder ['A', 'B', 'C', 'A'] 0 'a' (by decide)).2.2.2

/-- C9: arrow-key wrap-around on an items list of length n ≥ 1 with current
index i: ArrowRight/ArrowDown targets i + 1 when i < n - 1 and 0 when
i = n - 1; ArrowLeft/ArrowUp targets i - 1 when i > 0 and n - 1 when i = 0. -/
theorem arrowKeyWrap (n : Nat) (i : Nat) (hn : 1 ≤ n) (hi : i < n) :
    (i < n - 1 → focusNextItemIndex n (i : Int) = (i : Int) + 1) ∧
    (i = n - 1 → focusNextItemIndex n (i : Int) = 0) ∧
    (0 < i → focusPreviousItemIndex n (i : Int) = (i : Int) - 1) ∧
    (i = 0 → focusPreviousItemIndex n (i : Int) = (n : Int) - 1) := by
  refine ⟨?_, ?_, ?_, ?_⟩
  · intro h
    have : ((i : Int)) ≠ (n : Int) - 1 := by omega
    simp [focusNextItemIndex, this]
  · intro h
    have : ((i : Int)) = (n : Int) - 1 := by omega
    simp [focusNextItemIndex, this]
  · intro h
    have : ((i : Int)) ≠ 0 := by omega
    simp [focusPreviousItemIndex, this]
  · intro h
    subst h
    simp [focusPreviousItemIndex]

/-- Witness for arrowKeyWrap at n = 3, i = 2: ArrowRight wraps to 0 and
ArrowLeft targets 1. -/
theorem arrowKeyWrap_witness :
    focusNextItemIndex 3 (2 : Int) = 0 ∧ focusPreviousItemIndex 3 (2 : Int) = 1 := by
  have h := arrowKeyWrap 3 2 (by decide) (by decide)
  exact ⟨h.2.1 (by decide), by simpa using h.2.2.1 (by decide)⟩

/-- C10: with a non-empty items list and an in-range event index, every index
the keyboard handlers pass to focusItem is in range, so the items lookup never
goes out of bounds; with an empty items list, focusFirstItem targets index 0
and focusLastItem index -1, neither of which is a valid position. -/
theorem keyboardIndexBounds (labels : List Char) (i : Nat)
    (hne : labels.length ≠ 0) (hi : i < labels.length) :
    validIndex labels.length (focusPreviousItemIndex labels.length (i : Int)) ∧
    validIndex labels.length (focusNextItemIndex labels.length (i : Int)) ∧
    validIndex labels.length focusFirstItemIndex ∧
    validIndex labels.length (focusLastItemIndex labels.length) ∧
    (∀ character,
      focusNextCharacterMatchIndex labels i character ≠ -1 →
      validIndex labels.length (focusNextCharacterMatchIndex labels i character)) ∧
    (¬ validIndex 0 focusFirstItemIndex ∧ ¬ validIndex 0 (focusLastItemIndex 0)) := by
  refine ⟨?_, ?_, ?_, ?_, ?_, by decide⟩
  · unfold focusPreviousItemIndex validIndex
    by_cases h : ((i : Int)) = 0 <;> simp [h] <;> omega
  · unfold focusNextItemIndex validIndex
    by_cases h : ((i : Int)) = (labels.length : Int) - 1 <;> simp [h] <;> omega
  · unfold focusFirstItemIndex validIndex
    constructor <;> omega
  · unfold focusLastItemIndex validIndex
    constructor <;> omega
  · intro character hne'
    simp only [focusNextCharacterMatchIndex] at hne' ⊢
    by_cases hcase : getNextCharacterMatch labels character (i + 1) labels.length = -1
    · rw [if_pos hcase] at hne' ⊢
      rcases getNextCharacterMatch_bounds labels character 0 i with h | ⟨j, hj, _, hjlt⟩
      · exact absurd h hne'
      · rw [hj]
        exact ⟨by omega, by omega⟩
    · rw [if_neg hcase] at hne' ⊢
      rcases getNextCharacterMatch_bounds labels character (i + 1) labels.length
          with h | ⟨j, hj, hjge, hjlt⟩
      · exact absurd h hcase
      · rw [hj]
        exact ⟨by omega, by omega⟩

/-- Witness for keyboardIndexBounds at labels [A, B], i = 1. -/
theorem keyboardIndexBounds_witness :
    validIndex 2 (focusNextItemIndex 2 (1 : Int)) ∧
    validIndex 2 (focusLastItemIndex 2) := by
  have h := keyboardIndexBounds ['A', 'B'] 1 (by decide) (by decide)
  exact ⟨h.2.1, h.2.2.2.1⟩

/-- C8 counterexample: a container with a pre-existing aria-label and an
associated trigger. The claim says the explicit aria-label override is
preferred, but setMenuAriaLabel (src/src/menu.ts lines 299-311) assigns
aria-labelledby from the trigger id instead. -/
theorem ariaLabelOrder_counterexample :
    setMenuAriaLabelChoice (some "Site navigation") (some "trigger-1")
      = .labelledby "trigger-1" ∧
    setMenuAriaLabelChoice (some "Site navigation") (some "trigger-1")
      ≠ .ariaLabel "Site navigation" := by
  exact ⟨rfl, by decide⟩

/-- C8 amended: in accessible-menu.ts (getMenuAriaLabel) resolution prefers
a pre-existing aria-label, else aria-labelledby from the trigger id, else the
default Menu, and exactly one attribute choice results; in src/src/menu.ts
(setMenuAriaLabel) and the button variants the trigger is preferred, a
pre-existing aria-label is used only when no trigger exists, else the default
Menu. -/
theorem ariaLabelOrder (existingAria : Option String) (labelId : Option String) :
    (jsTruthy existingAria = true →
      getMenuAriaLabel existingAria labelId = .ariaLabel (existingAria.getD "")) ∧
    (jsTruthy existingAria = false → ∀ lid, labelId = some lid →
      getMenuAriaLabel existingAria labelId = .labelledby lid) ∧
    (jsTruthy existingAria = false → labelId = none →
      getMenuAriaLabel existingAria labelId = .ariaLabel "Menu") ∧
    (∀ lid, labelId = some lid →
      setMenuAriaLabelChoice existingAria labelId = .labelledby lid) ∧
    (labelId = none → jsTruthy existingAria = true →
      setMenuAriaLabelChoice existingAria labelId
        = .ariaLabel (existingAria.getD "")) ∧
    (labelId = none → jsTruthy existingAria = false →
      setMenuAriaLabelChoice existingAria labelId = .ariaLabel "Menu") := by
  refine ⟨?_, ?_, ?_, ?_, ?_, ?_⟩
  · intro h; simp [getMenuAriaLabel, h]
  · intro h lid hl; simp [getMenuAriaLabel, h, hl]
  · intro h hl; simp [getMenuAriaLabel, h, hl]
  · intro lid hl; simp [setMenuAriaLabelChoice, hl]
  · intro hl h; simp [setMenuAriaLabelChoice, hl, h]
  · intro hl h; simp [setMenuAriaLabelChoice, hl, h]

/-- Witness for ariaLabelOrder: with an existing aria-label and a trigger,
getMenuAriaLabel keeps the aria-label while setMenuAriaLabelChoice takes the
trigger. -/
theorem ariaLabelOrder_witness :
    getMenuAriaLabel (some "Nav") (some "t1") = .ariaLabel "Nav" ∧
    setMenuAriaLabelChoice (some "Nav") (some "t1") = .labelledby "t1" := by
  have h := ariaLabelOrder (some "Nav") (some "t1")
  exact ⟨h.1 (by decide), h.2.2.2.1 "t1" rfl⟩

/-- C5: resolution of the unknown strategy name bogus falls back to instant
(part_002 getTransition), a malformed custom strategy object falls back to
instant (part_000 getTransition), and the instant strategies invoke the
completion callback exactly once; but part_001 fade.open (lines 66-82) calls
callback once synchronously (line 81) and once more from its once-only
transitionend listener, so on a completed transition the completion callback
runs twice, not exactly once. -/
theorem transitionFallbackCallback :
    getTransitionP2 (some "bogus") = "instant" ∧
    getTransitionP0 [some (.obj true false)] 0 = .builtin "instant" ∧
    instantOpenCallbackCountP1 = 1 ∧
    instantCloseCallbackCountP1 = 1 ∧
    fadeOpenCallbackCountP2 true = 1 ∧
    fadeOpenCallbackCountP1 true = 2 := by
  exact ⟨rfl, rfl, rfl, rfl, rfl, rfl⟩

theorem scanInherit_found (ts : List (Option TransEntry)) :
    ∀ n d', d' < n →
    (∃ e, ts.getD d' none = some e ∧ e.applyToChildren = true) →
    (∀ k, d' < k → k < n → ∀ e, ts.getD k none = some e →
      e.applyToChildren = false) →
    scanInherit ts n = .table d' := by
  intro n
  induction n with
  | zero => intro d' h; omega
  | succ m ih =>
    intro d' hlt hfound hnear
    unfold scanInherit
    by_cases hmd : m = d'
    · subst hmd
      obtain ⟨e, he, hmark⟩ := hfound
      rw [he]
      simp [hmark]
    · have hlt2 : d' < m := by omega
      cases hk : ts.getD m none with
      | none =>
        exact ih d' hlt2 hfound (fun k h1 h2 => hnear k h1 (by omega))
      | some ek =>
        have hm : ek.applyToChildren = false := hnear m hlt2 (by omega) ek hk
        simp only [hm, Bool.false_eq_true, if_false]
        exact ih d' hlt2 hfound (fun k h1 h2 => hnear k h1 (by omega))

theorem scanInherit_none (ts : List (Option TransEntry)) :
    ∀ n, (∀ k, k < n → ∀ e, ts.getD k none = some e →
      e.applyToChildren = false) →
    scanInherit ts n = .instant := by
  intro n
  induction n with
  | zero => intro _; rfl
  | succ m ih =>
    intro hnone
    unfold scanInherit
    cases hk : ts.getD m none with
    | none => exact ih (fun k h1 => hnone k (by omega))
    | some ek =>
      have hm : ek.applyToChildren = false := hnone m (by omega) ek hk
      simp only [hm, Bool.false_eq_true, if_false]
      exact ih (fun k h1 => hnone k (by omega))

/-- C6: part_001 getTransition uses the entry at the node's own depth when
present (ancestor markers ignored); otherwise the nearest shallower entry
marked applyToChildren; otherwise instant; in particular depth 2 with no
depth-2 entry and an inheritable entry at depth 0 resolves to depth 0, and
the part_000 recursive variant resolves the same shape of example to the
depth-0 strategy. -/
theorem transitionResolution (ts : List (Option TransEntry)) (depth : Nat) :
    (∀ e, ts.getD depth none = some e →
      getTransitionP1 (some ts) depth = .table depth) ∧
    (ts.getD depth none = none → ∀ d', d' < depth →
      (∃ e, ts.getD d' none = some e ∧ e.applyToChildren = true) →
      (∀ k, d' < k → k < depth →
        ∀ e, ts.getD k none = some e → e.applyToChildren = false) →
      getTransitionP1 (some ts) depth = .table d') ∧
    (ts.getD depth none = none →
      (∀ d', d' < depth → ∀ e, ts.getD d' none = some e →
        e.applyToChildren = false) →
      getTransitionP1 (some ts) depth = .instant) ∧
    getTransitionP1 (some [some ⟨true⟩, none, none]) 2 = .table 0 ∧
    getTransitionP0 [some (.name "fade")] 2 = .builtin "fade" := by
  refine ⟨?_, ?_, ?_, ?_, ?_⟩
  · intro e he
    simp only [getTransitionP1, he, Option.isSome_some, if_true]
  · intro hnone d' hd' hfound hnear
    simp only [getTransitionP1, hnone, Option.isSome_none, Bool.false_eq_true,
      if_false]
    have hd0 : depth ≠ 0 := by omega
    rw [if_pos hd0]
    exact scanInherit_found ts depth d' hd' hfound hnear
  · intro hnone hnomark
    simp only [getTransitionP1, hnone, Option.isSome_none, Bool.false_eq_true,
      if_false]
    by_cases hd0 : depth ≠ 0
    · rw [if_pos hd0]
      exact scanInherit_none ts depth (fun k hk => hnomark k hk)
    · rw [if_neg hd0]
  · have h2 : ([some ⟨true⟩, none, none] :
        List (Option TransEntry)).getD 2 none = none := by rfl
    simp only [getTransitionP1, h2, Option.isSome_none, Bool.false_eq_true,
      if_false]
    rw [if_pos (by omega : (2 : Nat) ≠ 0)]
    exact scanInherit_found [some ⟨true⟩, none, none] 2 0 (by omega)
      ⟨⟨true⟩, rfl, rfl⟩
      (fun k h1 h2 e he => by
        have hk : k = 1 := by omega
        subst hk
        simp at he)
  · rfl

/-- Witness for transitionResolution: the example table with an inheritable
entry at depth 0 resolves depth 2 to the depth-0 strategy via clause two. -/
theorem transitionResolution_witness :
    getTransitionP1 (some [some ⟨true⟩, none, none]) 2 = .table 0 :=
  (transitionResolution [some ⟨true⟩, none, none] 2).2.1 rfl 0
    (by omega) ⟨⟨true⟩, rfl, rfl⟩
    (fun k h1 h2 e he => by
      have hk : k = 1 := by omega
      subst hk
      simp at he)
